import Mathlib

/-!
# qdefmake: extraction of QUAKED blocks from QuakeC sources

A shallow embedding of `qdefmake.c` and the properties of its pipeline:
argument resolution (`main`), manifest reading (`parse_progs_src`), block
extraction (`parse_qc_file`) and the file handling around them.

Modelling conventions.

* A C string is the list of the characters before its terminating NUL, so a
  buffer of `STRING_MAX` bytes holds at most `STRING_MAX - 1` characters;
  `snprintf` and `fgets` truncate accordingly. Files are text (no NUL byte).
* A file system is a partial map from path strings to contents, together with
  the set of paths that `fopen(_, "w")` can open. Opening the output file
  creates or truncates it at once; the file system a run leaves behind holds in
  it what was written (`fclose`, or the flush done by `exit`).
* While the output is open, how much of what was written has reached the file
  depends on the buffering of the C library. A source file that is the output
  file itself is therefore read as the empty file it is as long as nothing has
  been written, and once something has been written the run is not followed
  any further: it ends in the outcome `reread`.
* The counter `count` is an `unsigned int`: it is a natural number below
  `UINT_MOD` = 2^32 and `count++` wraps around.
* Messages printed to the status streams are not modelled, except that the
  number of calls of `display_help` and the count printed at the end are kept.
-/

namespace Qdefmake

/-- A C string: the characters before the terminating NUL. -/
abbrev Str := List Char

/-- The size in bytes of every buffer of the program (`#define STRING_MAX 1024`). -/
def STRING_MAX : Nat := 1024

/-! ## The C library functions the program calls -/

/-- Whether `t` occurs at the very start of `s`. -/
def startsWith : Str → Str → Bool
  | _, [] => true
  | [], _ :: _ => false
  | c :: cs, d :: ds => c == d && startsWith cs ds

/-- The function `strstr(s, t)`: offset of the first occurrence of `t` in `s`,
`none` for `NULL`. -/
def strstr : Str → Str → Option Nat
  | [], t => if t.isEmpty then some 0 else none
  | c :: cs, t =>
    if startsWith (c :: cs) t then some 0
    else (strstr cs t).map (· + 1)

/-- The function `strchr(s, c)`: offset of the first `c` in `s`, `none` for `NULL`. -/
def strchr : Str → Char → Option Nat
  | [], _ => none
  | d :: ds, c => if d = c then some 0 else (strchr ds c).map (· + 1)

/-- The function `isspace` in the C locale: space, `\t`, `\n`, `\v`, `\f`, `\r`. -/
def isspace (c : Char) : Bool :=
  c = ' ' || c = '\t' || c = '\n' || c = '\x0b' || c = '\x0c' || c = '\r'

/-- The call `snprintf(buf, n, "%s", s)`: `s` cut to the `n - 1` characters that fit. -/
def snprintf (n : Nat) (s : Str) : Str := s.take (n - 1)

/-- One call of `fgets` with room for `k` characters: the characters read (up to
and including the first newline, at most `k`) and the rest of the stream. -/
def fgetsAux : Nat → Str → Str × Str
  | 0, s => ([], s)
  | _ + 1, [] => ([], [])
  | k + 1, c :: cs =>
    if c = '\n' then ([c], cs)
    else (c :: (fgetsAux k cs).1, (fgetsAux k cs).2)

/-- The call `fgets(buf, n, f)` on a stream whose unread part is `s`: `none` is
`NULL` (end of file before any character), otherwise the buffer and the unread
rest. -/
def fgets (n : Nat) (s : Str) : Option (Str × Str) :=
  if s.isEmpty then none else some (fgetsAux (n - 1) s)

/-- The successive buffers that the loop
`while (!feof(f)) { s = fgets(buf, STRING_MAX, f); if (s == NULL) break; ... }`
hands to its body, for at most `fuel` iterations. -/
def readLoop : Nat → Str → List Str
  | 0, _ => []
  | fuel + 1, s =>
    match fgets STRING_MAX s with
    | none => []
    | some (buf, rest) => buf :: readLoop fuel rest

/-- The lines of a file as the program reads them: every `fgets` consumes at
least one character, so `s.length` iterations exhaust the stream. -/
def readLines (s : Str) : List Str := readLoop s.length s

/-! ## String helpers of the program -/

/-- The function `replace_slashes`: every backslash becomes `/`. -/
def replace_slashes (s : Str) : Str :=
  s.map (fun c => if c = '\\' then '/' else c)

/-- The function `strip_comments`: cut at the first `//`. -/
def strip_comments (s : Str) : Str :=
  match strstr s "//".toList with
  | none => s
  | some p => s.take p

/-- The function `strip_directives`: cut at the first `#`. -/
def strip_directives (s : Str) : Str :=
  match strstr s "#".toList with
  | none => s
  | some p => s.take p

/-- The function `strip_whitespace`: cut at the first whitespace character. -/
def strip_whitespace : Str → Str
  | [] => []
  | c :: cs => if isspace c then [] else c :: strip_whitespace cs

/-! ## Configuration and argument resolution (`main`, lines 236-294) -/

/-- The globals `path`, `progs`, `output` and `verbose`. -/
structure Config where
  path : Str
  progs : Str
  output : Str
  verbose : Bool
  deriving DecidableEq, Repr

/-- The globals at program start (zero-initialised). -/
def Config.zero : Config := { path := [], progs := [], output := [], verbose := false }

/-- How the argument loop ends: `exit` is `display_help(); exit(EXIT_SUCCESS)`,
`cont` is falling out of the loop. `helps` counts the calls of `display_help`. -/
inductive ArgOutcome where
  | exit (helps : Nat)
  | cont (cfg : Config) (helps : Nat)
  deriving DecidableEq, Repr

/-- The body of the `-path` case: `rest` holds the tokens after the flag. -/
def setPath (rest : List Str) (cfg : Config) (helps : Nat) : Config × Nat :=
  match rest with
  | [] => (cfg, helps + 1)
  | v :: _ => ({ cfg with path := replace_slashes (snprintf STRING_MAX v) }, helps)

/-- The body of the `-progs` case. -/
def setProgs (rest : List Str) (cfg : Config) (helps : Nat) : Config × Nat :=
  match rest with
  | [] => (cfg, helps + 1)
  | v :: _ => ({ cfg with progs := snprintf STRING_MAX v }, helps)

/-- The body of the `-output` case. -/
def setOutput (rest : List Str) (cfg : Config) (helps : Nat) : Config × Nat :=
  match rest with
  | [] => (cfg, helps + 1)
  | v :: _ => ({ cfg with output := replace_slashes (snprintf STRING_MAX v) }, helps)

/-- The loop `while (arg <= argc)` of `main` over the tokens `argv[arg..argc]`. -/
def argLoop : List Str → Config → Nat → ArgOutcome
  | [], cfg, helps => .cont cfg helps
  | a :: rest, cfg, helps =>
    if (strchr a '?').isSome then .exit (helps + 1)
    else
      let cfg1 := if a = "-verbose".toList then { cfg with verbose := true } else cfg
      let s2 := if a = "-path".toList then setPath rest cfg1 helps else (cfg1, helps)
      let s3 := if a = "-progs".toList then setProgs rest s2.1 s2.2 else s2
      let s4 := if a = "-output".toList then setOutput rest s3.1 s3.2 else s3
      argLoop rest s4.1 s4.2

/-- The defaults applied after the loop (lines 291-294). -/
def applyDefaults (cfg : Config) : Config :=
  let cfg1 := if cfg.progs.length = 0 then { cfg with progs := snprintf STRING_MAX "progs.src".toList } else cfg
  if cfg1.output.length = 0 then { cfg1 with output := snprintf STRING_MAX "output.def".toList } else cfg1

/-- The Argument Resolver: the argument loop from the zeroed globals, then the
defaults. `argv` holds the tokens after the program name. -/
def resolve (argv : List Str) : ArgOutcome :=
  match argLoop argv Config.zero 0 with
  | .exit h => .exit h
  | .cont cfg h => .cont (applyDefaults cfg) h

/-! ## Files and the process state -/

/-- A file system: the content `fopen(p, "r")` gives access to (`none` when it
returns `NULL`), and whether `fopen(p, "w")` succeeds. -/
structure World where
  files : Str → Option Str
  writable : Str → Bool

/-- The file system after `p` has been given content `c`. -/
def World.write (w : World) (p : Str) (c : Str) : World :=
  { w with files := fun q => if q = p then some c else w.files q }

/-- How the process ends: with exit status 0, with a failure status, or
`unknown` when the run came to read the output file it had already written to,
from where it is not followed (see `Result.reread`). -/
inductive Status where
  | success
  | failure
  | unknown
  deriving DecidableEq, Repr

/-- The state of the running process. `opens` lists the paths passed to `fopen`
and `scanned` the names passed to `parse_qc_file`, both in call order; `out`
lists the strings written to `outputfile` by `fputs`; `input` is what the
stream `inputfile` delivers; `count` is the global `unsigned int count`. -/
structure Proc where
  world : World
  input : Str
  opens : List Str
  scanned : List Str
  out : List Str
  count : Nat

/-- The process state when `main` starts. -/
def Proc.init (w : World) : Proc :=
  { world := w, input := [], opens := [], scanned := [], out := [], count := 0 }

/-- How a part of the run ends: it returns (`ok`), it calls
`exit(EXIT_FAILURE)` leaving the process in state `q` (`error`), or it opens for
reading the output file after something has been written to it (`reread`, with
the state `q` at that point); what the scan reads then depends on how much the
C library has flushed, and the run is not followed from there. -/
inductive Result (α : Type) where
  | ok (a : α)
  | error (q : Proc)
  | reread (q : Proc)

/-- What the process leaves behind. `reported` is the count printed by
`parse_progs_src`, if it got that far. -/
structure Outcome where
  status : Status
  helps : Nat
  reported : Option Nat
  proc : Proc

/-! ## Block extraction (`parse_qc_file`) -/

/-- The number of values of an `unsigned int` (32 bits). -/
def UINT_MOD : Nat := 4294967296

/-- The variables the scanning loop changes: the flag `found`, the output
stream and the counter (an `unsigned int`, so a number below `UINT_MOD`). -/
structure Scan where
  found : Bool
  out : List Str
  count : Nat
  deriving DecidableEq, Repr

/-- The start marker. -/
def startMarker : Str := "/*QUAKED".toList

/-- The end marker. -/
def endMarker : Str := "*/".toList

/-- The test `strstr(buf, "/*QUAKED") != NULL`. -/
def hasStart (buf : Str) : Bool := (strstr buf startMarker).isSome

/-- The test `strstr(buf, "*/") != NULL`. -/
def hasEnd (buf : Str) : Bool := (strstr buf endMarker).isSome

/-- The body of the loop of `parse_qc_file` for one buffer (lines 149-171). -/
def qcStep (st : Scan) (buf : Str) : Scan :=
  if !st.found then
    if hasStart buf then
      { found := true, out := st.out ++ [buf], count := (st.count + 1) % UINT_MOD }
    else st
  else
    { found := if hasEnd buf then false else st.found,
      out := st.out ++ [buf],
      count := st.count }

/-- The loop of `parse_qc_file` over the buffers read from the file. -/
def qcLoop : List Str → Scan → Scan
  | [], st => st
  | buf :: rest, st => qcLoop rest (qcStep st buf)

/-- The scan of one file on its own: `found = false`, nothing written, counter 0. -/
def scanFile (lines : List Str) : Scan :=
  qcLoop lines { found := false, out := [], count := 0 }

/-- The path `parse_qc_file` opens for the manifest entry `filename` (lines 125-132). -/
def qcPath (cfg : Config) (filename : Str) : Str :=
  if cfg.path.length ≠ 0 then
    snprintf STRING_MAX (cfg.path ++ "/".toList ++ filename)
  else filename

/-- The output file holds everything written so far: the effect of `fclose`, and
of the flush that `exit` performs on open streams. -/
def flush (cfg : Config) (p : Proc) : Proc :=
  { p with world := p.world.write cfg.output p.out.flatten }

/-- The function `parse_qc_file`. The result `.error q` is `exit(EXIT_FAILURE)`
leaving the process in state `q`. The file is read as the file system holds it,
except when it is the output file and something has been written to it: the
scan then reads a file that is being written, and the result is `.reread`. -/
def parse_qc_file (cfg : Config) (filename : Str) (p : Proc) : Result Proc :=
  let fullpath := qcPath cfg filename
  let p1 := { p with opens := p.opens ++ [fullpath], scanned := p.scanned ++ [filename] }
  match p1.world.files fullpath with
  | none => .error (flush cfg p1)
  | some content =>
    if fullpath = cfg.output ∧ p1.out ≠ [] then .reread p1
    else
      let st := qcLoop (readLines content) { found := false, out := p1.out, count := p1.count }
      .ok { p1 with out := st.out, count := st.count }

/-! ## Manifest reading (`parse_progs_src`) -/

/-- The loop of `parse_progs_src` over the buffers read from the manifest;
`first` is the local flag of the same name. -/
def progsLoop (cfg : Config) : List Str → Bool → Proc → Result Proc
  | [], _, p => .ok p
  | buf :: rest, first, p =>
    let b := strip_whitespace (strip_directives (strip_comments buf))
    if b.length = 0 then progsLoop cfg rest first p
    else
      let b1 := replace_slashes b
      if !first then
        match parse_qc_file cfg b1 p with
        | .error q => .error q
        | .reread q => .reread q
        | .ok q => progsLoop cfg rest first q
      else progsLoop cfg rest false p

/-- The function `parse_progs_src`; on normal return the second component is
the count it prints. -/
def parse_progs_src (cfg : Config) (p : Proc) : Result (Proc × Nat) :=
  match progsLoop cfg (readLines p.input) true p with
  | .error q => .error q
  | .reread q => .reread q
  | .ok q => .ok (q, q.count)

/-! ## Opening and closing the files, and `main` -/

/-- The path `open_files` opens for the manifest (lines 80-91). -/
def progsPath (cfg : Config) : Str :=
  if cfg.path.length > 0 then
    snprintf STRING_MAX (cfg.path ++ "/".toList ++ cfg.progs)
  else cfg.progs

/-- The function `open_files`. Opening the output creates or truncates it; if it
is the very file `inputfile` reads, that stream finds the file empty. -/
def open_files (cfg : Config) (p : Proc) : Except Proc Proc :=
  let mpath := progsPath cfg
  let p1 := { p with opens := p.opens ++ [mpath] }
  match p1.world.files mpath with
  | none => .error p1
  | some content =>
    let p2 := { p1 with opens := p1.opens ++ [cfg.output] }
    if p2.world.writable cfg.output then
      .ok { p2 with
        world := p2.world.write cfg.output [],
        input := if mpath = cfg.output then [] else content }
    else .error p2

/-- The function `close_files`. -/
def close_files (cfg : Config) (p : Proc) : Proc := flush cfg p

/-- The part of `main` after argument resolution (lines 296-300). -/
def run (cfg : Config) (helps : Nat) (w : World) : Outcome :=
  match open_files cfg (Proc.init w) with
  | .error q => { status := .failure, helps := helps, reported := none, proc := q }
  | .ok p =>
    match parse_progs_src cfg p with
    | .error q => { status := .failure, helps := helps, reported := none, proc := q }
    | .reread q => { status := .unknown, helps := helps, reported := none, proc := q }
    | .ok (q, n) =>
      { status := .success, helps := helps, reported := some n, proc := close_files cfg q }

/-- The function `main` on the tokens after the program name. -/
def main (argv : List Str) (w : World) : Outcome :=
  match resolve argv with
  | .exit h => { status := .success, helps := h, reported := none, proc := Proc.init w }
  | .cont cfg h => run cfg h w

/-! ## Definitions used to state the properties -/

/-- The normalised manifest entry of one manifest line, as `parse_progs_src`
computes it (lines 191-196). -/
def normalise (buf : Str) : Str :=
  replace_slashes (strip_whitespace (strip_directives (strip_comments buf)))

/-- The non-empty normalised entries of a manifest, in manifest order. -/
def manifestEntries (lines : List Str) : List Str :=
  (lines.map normalise).filter (fun e => e.length ≠ 0)

/-- The entries a manifest yields: its non-empty normalised entries but the first. -/
def yielded (lines : List Str) : List Str := (manifestEntries lines).tail

/-- The number of lines that contain the start marker and are read while the
scan of the file is in the Outside state (`found = false`). -/
def blockStarts (lines : List Str) : Nat :=
  ((List.range lines.length).filter
    (fun i => hasStart (lines.getD i []) && !(scanFile (lines.take i)).found)).length

/-- The lines `parse_qc_file` reads from the file at `path` (none if it is absent). -/
def fileLines (w : World) (path : Str) : List Str := readLines ((w.files path).getD [])

/-- The calls of `parse_qc_file` on a list of entries, one after the other, up
to the first that exits. -/
def scanAll (cfg : Config) : List Str → Proc → Result Proc
  | [], p => .ok p
  | e :: es, p =>
    match parse_qc_file cfg e p with
    | .error q => .error q
    | .reread q => .reread q
    | .ok q => scanAll cfg es q

/-- The process state a part of the run ends in, however it ends. -/
def Result.last : Result Proc → Proc
  | .ok q => q
  | .error q => q
  | .reread q => q

/-- The file system during the scan: the output file has been created or
truncated by `open_files`. -/
def scanWorld (cfg : Config) (w : World) : World := w.write cfg.output []

/-- The entries yielded by the manifest of a run, as `inputfile` delivers it. -/
def runEntries (cfg : Config) (w : World) : List Str :=
  yielded (fileLines (scanWorld cfg w) (progsPath cfg))

/-- The process state after a successful `open_files`. -/
def startProc (cfg : Config) (w : World) : Proc :=
  { world := scanWorld cfg w,
    input := ((scanWorld cfg w).files (progsPath cfg)).getD [],
    opens := [progsPath cfg, cfg.output],
    scanned := [], out := [], count := 0 }

/-- The output of scanning each of the files of `es` on its own, in order. -/
def outOf (cfg : Config) (w : World) (es : List Str) : List Str :=
  (es.map (fun e => (scanFile (fileLines w (qcPath cfg e))).out)).flatten

/-- The sum of the counts of scanning each of the files of `es` on its own. -/
def countOf (cfg : Config) (w : World) (es : List Str) : Nat :=
  (es.map (fun e => (scanFile (fileLines w (qcPath cfg e))).count)).sum

/-- The configuration when no option is given. -/
def defaultConfig : Config :=
  { path := [], progs := "progs.src".toList, output := "output.def".toList, verbose := false }

/-- A file system with a manifest of three entries, `foo.qc` holding one block
and `bar.qc` none. -/
def demoWorld : World :=
  { files := fun p =>
      if p = "progs.src".toList then some "progs.dat\nfoo.qc\nbar.qc // comment\n".toList
      else if p = "foo.qc".toList then
        some "void f();\n/*QUAKED foo (1 0 0)\nbody\n*/\nfloat x;\n".toList
      else if p = "bar.qc".toList then some "float y;\n".toList
      else none,
    writable := fun _ => true }

/-- A file system whose manifest names a file that is not there between two that are. -/
def brokenWorld : World :=
  { files := fun p =>
      if p = "progs.src".toList then some "progs.dat\nfoo.qc\nmissing.qc\nbar.qc\n".toList
      else if p = "foo.qc".toList then some "/*QUAKED foo (1 0 0)\n*/\n".toList
      else if p = "bar.qc".toList then some "/*QUAKED bar (1 0 0)\n*/\n".toList
      else none,
    writable := fun _ => true }

/-- A file system whose manifest names the output file, which already holds a
block, as its one source file. -/
def selfWorld : World :=
  { files := fun p =>
      if p = "progs.src".toList then some "progs.dat\noutput.def\n".toList
      else if p = "output.def".toList then some "/*QUAKED old\n*/\n".toList
      else none,
    writable := fun _ => true }

/-- A file system whose manifest names the output file, which is not there
yet, as its one source file. -/
def createdWorld : World :=
  { files := fun p =>
      if p = "progs.src".toList then some "progs.dat\noutput.def\n".toList
      else none,
    writable := fun _ => true }

/-- A file system whose manifest names `foo.qc`, which holds a block, and then
the output file as source files. -/
def rereadWorld : World :=
  { files := fun p =>
      if p = "progs.src".toList then some "progs.dat\nfoo.qc\noutput.def\n".toList
      else if p = "foo.qc".toList then some "/*QUAKED foo (1 0 0)\n*/\n".toList
      else none,
    writable := fun _ => true }

/-- A file system without any file, in which any file can be created. -/
def emptyWorld : World := { files := fun _ => none, writable := fun _ => true }

/-- Position of the first `//` in a line, the length of the line if there is none. -/
def firstComment : Str → Nat
  | [] => 0
  | c :: cs => if c = '/' ∧ cs.head? = some '/' then 0 else firstComment cs + 1

/-- Position of the first `#` in a line, the length of the line if there is none. -/
def firstDirective (line : Str) : Nat := line.findIdx (fun c => c = '#')

/-- Position of the first whitespace character in a line, the length of the
line if there is none. -/
def firstSpace (line : Str) : Nat := line.findIdx isspace

/-- The normalised entry as the specification words it: the part of the line
before the earliest of the first `//`, the first `#` and the first whitespace
character, with every backslash replaced by `/`. -/
def normaliseSpec (line : Str) : Str :=
  (line.take (min (firstComment line) (min (firstDirective line) (firstSpace line)))).map
    (fun c => if c = '\\' then '/' else c)

/-- A file system for a run with `-path C:\mod\src`: the manifest names one
source file in a subdirectory, written with a backslash. -/
def modWorld : World :=
  { files := fun p =>
      if p = "C:/mod/src/progs.src".toList then some "progs.dat\nsub\\foo.qc\n".toList
      else if p = "C:/mod/src/sub/foo.qc".toList then some "/*QUAKED foo (1 0 0)\n*/\n".toList
      else none,
    writable := fun _ => true }

/-- The configuration resolved from the arguments `-path d`, up to `verbose`. -/
def pathConfig (d : Str) (v : Bool) : Config :=
  { path := replace_slashes (snprintf STRING_MAX d), progs := "progs.src".toList,
    output := "output.def".toList, verbose := v }

/-- A file system whose first source file ends inside a block that is never
closed, and whose second source file holds a closed block. -/
def unbalancedWorld : World :=
  { files := fun p =>
      if p = "progs.src".toList then some "progs.dat\nopen.qc\nfoo.qc\n".toList
      else if p = "open.qc".toList then some "float x;\n/*QUAKED open\nbody\n".toList
      else if p = "foo.qc".toList then some "float y;\n/*QUAKED foo\n*/\n".toList
      else none,
    writable := fun _ => true }

/-- What one token without `?` does to the globals and to the number of help
displays (the body of the argument loop, lines 248-285); `rest` holds the
tokens after it. -/
def argStep (a : Str) (rest : List Str) (cfg : Config) (helps : Nat) : Config × Nat :=
  let cfg1 := if a = "-verbose".toList then { cfg with verbose := true } else cfg
  let s2 := if a = "-path".toList then setPath rest cfg1 helps else (cfg1, helps)
  let s3 := if a = "-progs".toList then setProgs rest s2.1 s2.2 else s2
  if a = "-output".toList then setOutput rest s3.1 s3.2 else s3

/-- Whether a token is one of the flags that take a value. -/
def isValueFlag (a : Str) : Bool :=
  decide (a = "-path".toList) || decide (a = "-progs".toList) || decide (a = "-output".toList)

/-- Whether a token is one of the four recognised flags. -/
def isFlag (a : Str) : Bool := decide (a = "-verbose".toList) || isValueFlag a

/-- The argument loop on the tokens `r`, started where an earlier loop ended. -/
def thenArgs (o : ArgOutcome) (r : List Str) : ArgOutcome :=
  match o with
  | .exit k => .exit k
  | .cont c k => argLoop r c k

/-- A well-formed option group of the command line. -/
inductive Group where
  | verbose
  | path (v : Str)
  | progs (v : Str)
  | output (v : Str)
  deriving DecidableEq, Repr

/-- The tokens of an option group. -/
def Group.tokens : Group → List Str
  | .verbose => ["-verbose".toList]
  | .path v => ["-path".toList, v]
  | .progs v => ["-progs".toList, v]
  | .output v => ["-output".toList, v]

/-- The flag of an option group. -/
def Group.flag : Group → Str
  | .verbose => "-verbose".toList
  | .path _ => "-path".toList
  | .progs _ => "-progs".toList
  | .output _ => "-output".toList

/-- The value of a group, if it has one, is not a flag and holds no `?`. -/
def Group.wellFormed : Group → Bool
  | .verbose => true
  | .path v => decide ('?' ∉ v) && !isFlag v
  | .progs v => decide ('?' ∉ v) && !isFlag v
  | .output v => decide ('?' ∉ v) && !isFlag v

/-- What the program does to the globals on reading an option group. -/
def Group.apply (g : Group) (cfg : Config) : Config :=
  match g with
  | .verbose => { cfg with verbose := true }
  | .path v => { cfg with path := replace_slashes (snprintf STRING_MAX v) }
  | .progs v => { cfg with progs := snprintf STRING_MAX v }
  | .output v => { cfg with output := replace_slashes (snprintf STRING_MAX v) }

/-- The command line made of a list of option groups. -/
def groupArgs (gs : List Group) : List Str := (gs.map Group.tokens).flatten

/-- The lines of a file of `n` blocks of two lines each. -/
def blockFile (n : Nat) : List Str :=
  (List.replicate n ["/*QUAKED a\n".toList, "*/\n".toList]).flatten

/-- A file with a start-marker line inside an open block. -/
def nestedFile : Str := "/*QUAKED a\n/*QUAKED b */\nx\n*/\n".toList

/-- A file whose only block is a single line, followed by another line. -/
def oneLineFile : Str := "/*QUAKED foo */\nfloat x;\n".toList

/-! ## Reading a file: the fuel of `readLines` is enough -/

theorem fgetsAux_append (k : Nat) (s : Str) : (fgetsAux k s).1 ++ (fgetsAux k s).2 = s := by
  induction k generalizing s with
  | zero => simp [fgetsAux]
  | succ k ih =>
    cases s with
    | nil => simp [fgetsAux]
    | cons c cs =>
      by_cases hc : c = '\n'
      · simp [fgetsAux, hc]
      · simp [fgetsAux, hc, ih cs]

theorem fgetsAux_rest_length (k : Nat) (c : Char) (cs : Str) :
    (fgetsAux (k + 1) (c :: cs)).2.length ≤ cs.length := by
  induction k generalizing c cs with
  | zero => by_cases hc : c = '\n' <;> simp [fgetsAux, hc]
  | succ k ih =>
    by_cases hc : c = '\n'
    · simp [fgetsAux, hc]
    · cases cs with
      | nil => simp [fgetsAux, hc]
      | cons d ds =>
        have := ih d ds
        simp only [fgetsAux, hc, if_false] at this ⊢
        exact Nat.le_succ_of_le this

theorem readLoop_flatten (fuel : Nat) (s : Str) (h : s.length ≤ fuel) :
    (readLoop fuel s).flatten = s := by
  induction fuel generalizing s with
  | zero =>
    have : s = [] := List.length_eq_zero.mp (Nat.le_zero.mp h)
    subst this
    rfl
  | succ fuel ih =>
    cases s with
    | nil => rfl
    | cons c cs =>
      have hrest := fgetsAux_rest_length 1022 c cs
      have happ := fgetsAux_append 1023 (c :: cs)
      have hfg : fgets STRING_MAX (c :: cs) = some (fgetsAux 1023 (c :: cs)) := rfl
      simp only [readLoop, hfg, List.flatten_cons]
      rw [ih _ (Nat.le_trans hrest (Nat.le_of_succ_le_succ h))]
      exact happ

/-- Reading loses nothing: the buffers handed to the loop body, put end to end,
are the content of the file, so `readLines` never stops for lack of fuel. -/
theorem readLines_flatten (s : Str) : (readLines s).flatten = s :=
  readLoop_flatten s.length s (Nat.le_refl _)

/-! ## Lemmas on the scanning loop -/

theorem qcLoop_append (a b : List Str) (st : Scan) :
    qcLoop (a ++ b) st = qcLoop b (qcLoop a st) := by
  induction a generalizing st with
  | nil => rfl
  | cons x xs ih => simp [qcLoop, ih]

/-- The loop only appends to the output: its effect on any state is its effect
on the state with the same flag and counter and nothing written. -/
theorem qcLoop_frame (lines : List Str) (st : Scan) :
    qcLoop lines st =
      { found := (qcLoop lines { found := st.found, out := [], count := st.count }).found,
        out := st.out
          ++ (qcLoop lines { found := st.found, out := [], count := st.count }).out,
        count := (qcLoop lines { found := st.found, out := [], count := st.count }).count } := by
  induction lines generalizing st with
  | nil => simp [qcLoop]
  | cons x xs ih =>
    simp only [qcLoop]
    rw [ih (qcStep st x), ih (qcStep { found := st.found, out := [], count := st.count } x)]
    cases hf : st.found <;> by_cases hs : hasStart x <;> by_cases he : hasEnd x <;>
      simp [qcStep, hf, hs, he]

/-- The counter does not depend on what has been written. -/
theorem qcLoop_count_out (lines : List Str) (f : Bool) (o : List Str) (c : Nat) :
    (qcLoop lines { found := f, out := o, count := c }).count
      = (qcLoop lines { found := f, out := [], count := c }).count := by
  rw [qcLoop_frame]

/-- The counter stays below `UINT_MOD`. -/
theorem qcLoop_count_lt (lines : List Str) (st : Scan) (hc : st.count < UINT_MOD) :
    (qcLoop lines st).count < UINT_MOD := by
  induction lines generalizing st with
  | nil => exact hc
  | cons x xs ih =>
    simp only [qcLoop]
    apply ih
    have hpos : 0 < UINT_MOD := by decide
    cases hf : st.found <;> by_cases hs : hasStart x <;>
      simp only [qcStep, hf, hs, Bool.not_false, Bool.not_true, if_true, if_false,
        Bool.false_eq_true] <;>
      first | exact hc | exact Nat.mod_lt _ hpos

/-- The counter after a scan that starts at `c` is `c` plus the counter after
the same scan started at 0, wrapped around. -/
theorem qcLoop_count (lines : List Str) (f : Bool) (o : List Str) (c : Nat)
    (hc : c < UINT_MOD) :
    (qcLoop lines { found := f, out := o, count := c }).count
      = (c + (qcLoop lines { found := f, out := [], count := 0 }).count) % UINT_MOD := by
  rw [qcLoop_count_out]
  induction lines generalizing f c with
  | nil =>
    show c = (c + 0) % UINT_MOD
    rw [Nat.add_zero, Nat.mod_eq_of_lt hc]
  | cons x xs ih =>
    simp only [qcLoop]
    cases f
    · by_cases hs : hasStart x = true
      · have h1 : qcStep { found := false, out := [], count := c } x
            = { found := true, out := [x], count := (c + 1) % UINT_MOD } := by
          simp [qcStep, hs]
        have h0 : qcStep { found := false, out := [], count := 0 } x
            = { found := true, out := [x], count := 1 } := by
          simp [qcStep, hs, UINT_MOD]
        rw [h1, h0, qcLoop_count_out, qcLoop_count_out xs true [x] 1,
          ih true _ (Nat.mod_lt _ (by decide)), ih true 1 (by decide)]
        unfold UINT_MOD
        omega
      · have h1 : ∀ k, qcStep { found := false, out := [], count := k } x
            = { found := false, out := [], count := k } := by
          intro k
          simp [qcStep, hs]
        rw [h1, h1]
        exact ih false c hc
    · have h1 : ∀ k, qcStep { found := true, out := [], count := k } x
          = { found := !hasEnd x, out := [x], count := k } := by
        intro k
        cases he : hasEnd x <;> simp [qcStep, he]
      rw [h1, h1, qcLoop_count_out, qcLoop_count_out xs _ [x] 0]
      exact ih _ c hc

/-- The flag and what is written do not depend on the counter. -/
theorem qcLoop_count_irrel (lines : List Str) (f : Bool) (o : List Str) (c d : Nat) :
    (qcLoop lines { found := f, out := o, count := c }).found
        = (qcLoop lines { found := f, out := o, count := d }).found
      ∧ (qcLoop lines { found := f, out := o, count := c }).out
        = (qcLoop lines { found := f, out := o, count := d }).out := by
  induction lines generalizing f o c d with
  | nil => exact ⟨rfl, rfl⟩
  | cons x xs ih =>
    simp only [qcLoop]
    cases f
    · by_cases hs : hasStart x = true
      · have h1 : ∀ k, qcStep { found := false, out := o, count := k } x
            = { found := true, out := o ++ [x], count := (k + 1) % UINT_MOD } := by
          intro k
          simp [qcStep, hs]
        rw [h1, h1]
        exact ih _ _ _ _
      · have h1 : ∀ k, qcStep { found := false, out := o, count := k } x
            = { found := false, out := o, count := k } := by
          intro k
          simp [qcStep, hs]
        rw [h1, h1]
        exact ih _ _ _ _
    · have h1 : ∀ k, qcStep { found := true, out := o, count := k } x
          = { found := !hasEnd x, out := o ++ [x], count := k } := by
        intro k
        cases he : hasEnd x <;> simp [qcStep, he]
      rw [h1, h1]
      exact ih _ _ _ _

/-- The scan of a file in the course of a run, in terms of the scan of the file
on its own: what it writes is appended, what it counts is added, wrapping
around. -/
theorem qcLoop_scanFile (lines : List Str) (o : List Str) (c : Nat) (hc : c < UINT_MOD) :
    qcLoop lines { found := false, out := o, count := c }
      = { found := (scanFile lines).found,
          out := o ++ (scanFile lines).out,
          count := (c + (scanFile lines).count) % UINT_MOD } := by
  rw [qcLoop_frame]
  unfold scanFile
  simp only [Scan.mk.injEq]
  exact ⟨(qcLoop_count_irrel lines false [] c 0).1,
    congrArg (fun t => o ++ t) (qcLoop_count_irrel lines false [] c 0).2,
    qcLoop_count lines false [] c hc⟩

/-- Inside a block, lines without the end marker are all written and the
state stays Inside. -/
theorem qcLoop_inside (mid : List Str) (st : Scan) (hf : st.found = true)
    (hmid : ∀ m ∈ mid, hasEnd m = false) :
    qcLoop mid st = { found := true, out := st.out ++ mid, count := st.count } := by
  induction mid generalizing st with
  | nil => cases st; simp_all [qcLoop]
  | cons x xs ih =>
    have hx : hasEnd x = false := hmid x (by simp)
    have hxs : ∀ m ∈ xs, hasEnd m = false := fun m hm => hmid m (by simp [hm])
    simp only [qcLoop]
    rw [ih (qcStep st x) (by simp [qcStep, hf, hx]) hxs]
    simp [qcStep, hf, hx]

/-- Outside a block, lines without the start marker change nothing. -/
theorem qcLoop_outside (pre : List Str) (st : Scan) (hf : st.found = false)
    (hpre : ∀ l ∈ pre, hasStart l = false) :
    qcLoop pre st = st := by
  induction pre generalizing st with
  | nil => rfl
  | cons x xs ih =>
    have hx : hasStart x = false := hpre x (by simp)
    have hxs : ∀ l ∈ xs, hasStart l = false := fun l hl => hpre l (by simp [hl])
    simp only [qcLoop]
    have : qcStep st x = st := by simp [qcStep, hf, hx]
    rw [this]
    exact ih st hf hxs

/-! ## Block extraction: C1, C2, C3 -/

/-- C1, as stated, fails. In `nestedFile` line 1 contains the start marker, line
3 is the first later line with the end marker, and line 2, strictly between
them, is not written: line 1 was read Inside and closed the block. -/
theorem c1_between_lines_counterexample :
    readLines nestedFile
        = ["/*QUAKED a\n".toList, "/*QUAKED b */\n".toList, "x\n".toList, "*/\n".toList]
      ∧ hasStart "/*QUAKED b */\n".toList = true
      ∧ hasEnd "x\n".toList = false
      ∧ hasEnd "*/\n".toList = true
      ∧ (scanFile (readLines nestedFile)).out
        = ["/*QUAKED a\n".toList, "/*QUAKED b */\n".toList]
      ∧ "x\n".toList ∉ (scanFile (readLines nestedFile)).out := by
  decide

/-- C1, amended: if line `s` contains the start marker and is read in the
Outside state or has no end marker itself, and `e` is the first later line with
the end marker, then `s`, the lines `mid` strictly between them and `e` are
written to the output, unchanged, in order and next to each other. -/
theorem c1_between_lines_written (pre mid post : List Str) (s e : Str)
    (hs : hasStart s = true) (he : hasEnd e = true)
    (hmid : ∀ m ∈ mid, hasEnd m = false)
    (hout : (scanFile pre).found = false ∨ hasEnd s = false) :
    (∃ a b, (scanFile (pre ++ s :: mid ++ e :: post)).out = a ++ s :: mid ++ e :: b)
      ∧ (scanFile (pre ++ s :: mid ++ [e])).found = false := by
  have hin : (qcStep (scanFile pre) s).found = true
      ∧ (qcStep (scanFile pre) s).out = (scanFile pre).out ++ [s] := by
    cases hf : (scanFile pre).found
    · simp [qcStep, hf, hs]
    · rcases hout with h | h
      · simp [hf] at h
      · simp [qcStep, hf, h]
  have hrun : scanFile (pre ++ s :: mid ++ e :: post)
      = qcLoop post (qcStep (qcLoop mid (qcStep (scanFile pre) s)) e) := by
    have hsplit : pre ++ s :: mid ++ e :: post = pre ++ ([s] ++ (mid ++ ([e] ++ post))) := by
      simp
    unfold scanFile
    rw [hsplit, qcLoop_append, qcLoop_append, qcLoop_append, qcLoop_append]
    rfl
  have hmidrun := qcLoop_inside mid (qcStep (scanFile pre) s) hin.1 hmid
  have hend : (qcStep (qcLoop mid (qcStep (scanFile pre) s)) e).out
      = (scanFile pre).out ++ [s] ++ mid ++ [e] := by
    rw [hmidrun, ← hin.2]
    simp [qcStep]
  have hrun2 : scanFile (pre ++ s :: mid ++ [e])
      = qcStep (qcLoop mid (qcStep (scanFile pre) s)) e := by
    have hsplit : pre ++ s :: mid ++ [e] = pre ++ ([s] ++ (mid ++ [e])) := by simp
    unfold scanFile
    rw [hsplit, qcLoop_append, qcLoop_append, qcLoop_append]
    rfl
  refine ⟨⟨(scanFile pre).out, (qcLoop post
    { found := (qcStep (qcLoop mid (qcStep (scanFile pre) s)) e).found, out := [],
      count := (qcStep (qcLoop mid (qcStep (scanFile pre) s)) e).count }).out, ?_⟩, ?_⟩
  · rw [hrun, qcLoop_frame post, hend]
    simp
  · rw [hrun2, hmidrun]
    simp [qcStep, he]

/-- Witness of `c1_between_lines_written`: a block with two lines between its
markers. -/
theorem c1_between_lines_written_witness :
    (∃ a b, (scanFile (["float x;\n".toList] ++ "/*QUAKED foo\n".toList
        :: ["a\n".toList, "b\n".toList] ++ "*/\n".toList :: ["float y;\n".toList])).out
      = a ++ "/*QUAKED foo\n".toList :: ["a\n".toList, "b\n".toList] ++ "*/\n".toList :: b)
    ∧ (scanFile (["float x;\n".toList] ++ "/*QUAKED foo\n".toList
        :: ["a\n".toList, "b\n".toList] ++ ["*/\n".toList])).found = false :=
  c1_between_lines_written ["float x;\n".toList] ["a\n".toList, "b\n".toList]
    ["float y;\n".toList] "/*QUAKED foo\n".toList "*/\n".toList
    (by decide) (by decide) (by decide) (by decide)

/-- C2: the code fails the claim on a single-line block. `oneLineFile` has
exactly one block, the line `/*QUAKED foo */`, and no marker anywhere else, yet
the output also holds the line after the block: the branch that finds the
start marker does not look for the end marker on the same line, so the block
is left open. -/
theorem c2_one_line_block_counterexample :
    readLines oneLineFile = ["/*QUAKED foo */\n".toList, "float x;\n".toList]
      ∧ hasStart "/*QUAKED foo */\n".toList = true
      ∧ hasEnd "/*QUAKED foo */\n".toList = true
      ∧ hasStart "float x;\n".toList = false
      ∧ hasEnd "float x;\n".toList = false
      ∧ (scanFile (readLines oneLineFile)).out
        = ["/*QUAKED foo */\n".toList, "float x;\n".toList]
      ∧ (scanFile (readLines oneLineFile)).out ≠ ["/*QUAKED foo */\n".toList] := by
  decide

/-- A block that runs from a start-marker line `s` to a later end-marker line
`e`, in a file without any other marker, is written exactly: lines `s` through
`e`, nothing else, counted once, and the scan ends Outside. -/
theorem scanFile_one_block (pre mid post : List Str) (s e : Str)
    (hpre : ∀ l ∈ pre, hasStart l = false ∧ hasEnd l = false)
    (hmid : ∀ l ∈ mid, hasStart l = false ∧ hasEnd l = false)
    (hpost : ∀ l ∈ post, hasStart l = false ∧ hasEnd l = false)
    (hs : hasStart s = true) (he : hasEnd e = true) :
    scanFile (pre ++ s :: mid ++ e :: post)
      = { found := false, out := s :: mid ++ [e], count := 1 } := by
  have hP : scanFile pre = { found := false, out := [], count := 0 } :=
    qcLoop_outside pre _ rfl (fun l hl => (hpre l hl).1)
  have hS : qcStep (scanFile pre) s = { found := true, out := [s], count := 1 } := by
    rw [hP]; simp [qcStep, hs, UINT_MOD]
  have hsplit : pre ++ s :: mid ++ e :: post = pre ++ ([s] ++ (mid ++ ([e] ++ post))) := by
    simp
  have hrun : scanFile (pre ++ s :: mid ++ e :: post)
      = qcLoop post (qcStep (qcLoop mid (qcStep (scanFile pre) s)) e) := by
    unfold scanFile
    rw [hsplit, qcLoop_append, qcLoop_append, qcLoop_append, qcLoop_append]
    rfl
  rw [hrun, hS, qcLoop_inside mid _ rfl (fun l hl => (hmid l hl).2)]
  have hE : qcStep { found := true, out := [s] ++ mid, count := 1 } e
      = { found := false, out := s :: mid ++ [e], count := 1 } := by
    simp [qcStep, he]
  rw [hE]
  exact qcLoop_outside post _ rfl (fun l hl => (hpost l hl).1)

/-- The counter after the scan of a file is the number of its block starts,
wrapped around. -/
theorem scanFile_count (lines : List Str) :
    (scanFile lines).count = blockStarts lines % UINT_MOD := by
  induction lines using List.reverseRecOn with
  | nil => rfl
  | append_singleton l x ih =>
    have hstep : (scanFile (l ++ [x])).count
        = if (hasStart x && !(scanFile l).found) = true
          then ((scanFile l).count + 1) % UINT_MOD else (scanFile l).count := by
      unfold scanFile
      rw [qcLoop_append]
      simp only [qcLoop]
      cases hf : (qcLoop l { found := false, out := [], count := 0 }).found <;>
        by_cases hs : hasStart x <;> simp [qcStep, hf, hs]
    have hfilter : (List.range l.length).filter
          (fun i => hasStart ((l ++ [x]).getD i []) && !(scanFile ((l ++ [x]).take i)).found)
        = (List.range l.length).filter
          (fun i => hasStart (l.getD i []) && !(scanFile (l.take i)).found) := by
      apply List.filter_congr
      intro i hi
      have hlt : i < l.length := List.mem_range.mp hi
      rw [List.take_append_of_le_length (Nat.le_of_lt hlt)]
      simp [List.getD_eq_getElem?_getD, List.getElem?_append_left hlt]
    have hlen : blockStarts (l ++ [x])
        = blockStarts l + (if (hasStart x && !(scanFile l).found) = true then 1 else 0) := by
      unfold blockStarts
      rw [List.length_append, List.length_singleton, List.range_succ, List.filter_append,
        hfilter, List.length_append]
      congr 1
      by_cases hc : (hasStart x && !(scanFile l).found) = true <;>
        simp [List.filter_cons, List.getD_eq_getElem?_getD, hc]
    rw [hstep, hlen, ih]
    by_cases hc : (hasStart x && !(scanFile l).found) = true
    · rw [if_pos hc, if_pos hc]
      unfold UINT_MOD
      omega
    · rw [if_neg hc, if_neg hc, Nat.add_zero]

/-- The counter after the scan of a file is below `UINT_MOD`. -/
theorem scanFile_count_lt (lines : List Str) : (scanFile lines).count < UINT_MOD := by
  rw [scanFile_count]
  exact Nat.mod_lt _ (by decide)

/-! ## Lemmas on `parse_qc_file`, the manifest loop and the run -/

/-- A call of `parse_qc_file` on a file that opens and is not the output file
already written to. -/
theorem parse_qc_file_ok (cfg : Config) (f : Str) (p : Proc) (c : Str)
    (h : p.world.files (qcPath cfg f) = some c)
    (hr : ¬ (qcPath cfg f = cfg.output ∧ p.out ≠ []))
    (hc : p.count < UINT_MOD) :
    parse_qc_file cfg f p = .ok { p with
      opens := p.opens ++ [qcPath cfg f],
      scanned := p.scanned ++ [f],
      out := p.out ++ (scanFile (readLines c)).out,
      count := (p.count + (scanFile (readLines c)).count) % UINT_MOD } := by
  unfold parse_qc_file
  simp only [h]
  rw [if_neg hr, qcLoop_scanFile _ _ _ hc]

/-- A call of `parse_qc_file` on a file that does not open. -/
theorem parse_qc_file_error (cfg : Config) (f : Str) (p : Proc)
    (h : p.world.files (qcPath cfg f) = none) :
    parse_qc_file cfg f p = .error (flush cfg { p with
      opens := p.opens ++ [qcPath cfg f],
      scanned := p.scanned ++ [f] }) := by
  unfold parse_qc_file
  simp only [h]

/-- A call of `parse_qc_file` on the output file once something has been written. -/
theorem parse_qc_file_reread (cfg : Config) (f : Str) (p : Proc) (c : Str)
    (h : p.world.files (qcPath cfg f) = some c)
    (hr : qcPath cfg f = cfg.output ∧ p.out ≠ []) :
    parse_qc_file cfg f p = .reread { p with
      opens := p.opens ++ [qcPath cfg f],
      scanned := p.scanned ++ [f] } := by
  unfold parse_qc_file
  simp only [h]
  rw [if_pos hr]

/-- The three ways a call of `parse_qc_file` ends. -/
theorem parse_qc_file_cases (cfg : Config) (f : Str) (p : Proc) (hc : p.count < UINT_MOD) :
    (p.world.files (qcPath cfg f) = none
        ∧ parse_qc_file cfg f p = .error (flush cfg { p with
            opens := p.opens ++ [qcPath cfg f],
            scanned := p.scanned ++ [f] }))
      ∨ (∃ c, p.world.files (qcPath cfg f) = some c
        ∧ (qcPath cfg f = cfg.output ∧ p.out ≠ [])
        ∧ parse_qc_file cfg f p = .reread { p with
            opens := p.opens ++ [qcPath cfg f],
            scanned := p.scanned ++ [f] })
      ∨ (∃ c, p.world.files (qcPath cfg f) = some c
        ∧ ¬ (qcPath cfg f = cfg.output ∧ p.out ≠ [])
        ∧ parse_qc_file cfg f p = .ok { p with
            opens := p.opens ++ [qcPath cfg f],
            scanned := p.scanned ++ [f],
            out := p.out ++ (scanFile (readLines c)).out,
            count := (p.count + (scanFile (readLines c)).count) % UINT_MOD }) := by
  cases h : p.world.files (qcPath cfg f) with
  | none => exact Or.inl ⟨rfl, parse_qc_file_error cfg f p h⟩
  | some c =>
    by_cases hr : qcPath cfg f = cfg.output ∧ p.out ≠ []
    · exact Or.inr (Or.inl ⟨c, rfl, hr, parse_qc_file_reread cfg f p c h hr⟩)
    · exact Or.inr (Or.inr ⟨c, rfl, hr, parse_qc_file_ok cfg f p c h hr hc⟩)

/-- A chain of scans that returns has scanned every entry: the output is the
concatenation of the per-file outputs and the counter the wrapped sum of the
per-file counts. -/
theorem scanAll_ok_inv (cfg : Config) (es : List Str) (p q : Proc)
    (hc : p.count < UINT_MOD) (h : scanAll cfg es p = .ok q) :
    q = { p with
      opens := p.opens ++ es.map (qcPath cfg),
      scanned := p.scanned ++ es,
      out := p.out ++ outOf cfg p.world es,
      count := (p.count + countOf cfg p.world es) % UINT_MOD } := by
  induction es generalizing p with
  | nil =>
    simp only [scanAll, Result.ok.injEq] at h
    subst h
    simp [outOf, countOf, Nat.mod_eq_of_lt hc]
  | cons e es ih =>
    simp only [scanAll] at h
    rcases parse_qc_file_cases cfg e p hc with ⟨_, he⟩ | ⟨c, _, _, he⟩ | ⟨c, hfile, _, he⟩
    · rw [he] at h; cases h
    · rw [he] at h; cases h
    · rw [he] at h
      simp only [] at h
      have := ih _ (Nat.mod_lt _ (by decide)) h
      rw [this]
      simp only [outOf, countOf, fileLines, hfile, List.map_cons, List.flatten_cons,
        List.sum_cons, Option.getD_some, List.append_assoc, List.singleton_append,
        Proc.mk.injEq, true_and]
      unfold UINT_MOD
      omega

/-- A chain of scans over files that all open, none of them the output file. -/
theorem scanAll_ok (cfg : Config) (es : List Str) (p : Proc)
    (h : ∀ e ∈ es, (p.world.files (qcPath cfg e)).isSome = true)
    (hsrc : ∀ e ∈ es, qcPath cfg e ≠ cfg.output)
    (hc : p.count < UINT_MOD) :
    scanAll cfg es p = .ok { p with
      opens := p.opens ++ es.map (qcPath cfg),
      scanned := p.scanned ++ es,
      out := p.out ++ outOf cfg p.world es,
      count := (p.count + countOf cfg p.world es) % UINT_MOD } := by
  induction es generalizing p with
  | nil => simp [scanAll, outOf, countOf, Nat.mod_eq_of_lt hc]
  | cons e es ih =>
    obtain ⟨c, hfile⟩ := Option.isSome_iff_exists.mp (h e (by simp))
    simp only [scanAll]
    rw [parse_qc_file_ok cfg e p c hfile (fun hr => hsrc e (by simp) hr.1) hc]
    simp only []
    rw [ih]
    · simp only [outOf, countOf, fileLines, hfile, List.map_cons, List.flatten_cons,
        List.sum_cons, Option.getD_some, List.append_assoc, List.singleton_append,
        Result.ok.injEq, Proc.mk.injEq, true_and]
      unfold UINT_MOD
      omega
    · exact fun x hx => h x (by simp [hx])
    · exact fun x hx => hsrc x (by simp [hx])
    · exact Nat.mod_lt _ (by decide)

/-- A chain of scans whose first file that does not open comes after files that
all open, none of them the output file. -/
theorem scanAll_error (cfg : Config) (a b : List Str) (e : Str) (p : Proc)
    (ha : ∀ x ∈ a, (p.world.files (qcPath cfg x)).isSome = true)
    (hsrc : ∀ x ∈ a, qcPath cfg x ≠ cfg.output)
    (he : p.world.files (qcPath cfg e) = none)
    (hc : p.count < UINT_MOD) :
    scanAll cfg (a ++ e :: b) p = .error (flush cfg { p with
      opens := p.opens ++ (a ++ [e]).map (qcPath cfg),
      scanned := p.scanned ++ (a ++ [e]),
      out := p.out ++ outOf cfg p.world a,
      count := (p.count + countOf cfg p.world a) % UINT_MOD }) := by
  induction a generalizing p with
  | nil =>
    simp only [List.nil_append, scanAll]
    rw [parse_qc_file_error cfg e p he]
    simp [outOf, countOf, Nat.mod_eq_of_lt hc]
  | cons x xs ih =>
    obtain ⟨c, hfile⟩ := Option.isSome_iff_exists.mp (ha x (by simp))
    rw [List.cons_append]
    simp only [scanAll]
    rw [parse_qc_file_ok cfg x p c hfile (fun hr => hsrc x (by simp) hr.1) hc]
    simp only []
    have hmod : ∀ n, ((p.count + (scanFile (readLines c)).count) % UINT_MOD + n) % UINT_MOD
        = (p.count + ((scanFile (readLines c)).count + n)) % UINT_MOD := by
      intro n
      unfold UINT_MOD
      omega
    rw [ih]
    · simp [outOf, countOf, fileLines, hfile, hmod, flush]
    · exact fun y hy => ha y (by simp [hy])
    · exact fun y hy => hsrc y (by simp [hy])
    · exact he
    · exact Nat.mod_lt _ (by decide)

/-- However a chain of scans ends, the names passed to `parse_qc_file` are an
initial part of the entries, and the files opened are theirs. -/
theorem scanAll_trace (cfg : Config) (es : List Str) (p : Proc) :
    ∃ k, (Result.last (scanAll cfg es p)).scanned = p.scanned ++ es.take k
      ∧ (Result.last (scanAll cfg es p)).opens = p.opens ++ (es.take k).map (qcPath cfg) := by
  induction es generalizing p with
  | nil => exact ⟨0, by simp [scanAll, Result.last], by simp [scanAll, Result.last]⟩
  | cons e es ih =>
    simp only [scanAll]
    cases hq : parse_qc_file cfg e p with
    | error q =>
      refine ⟨1, ?_, ?_⟩ <;>
        · unfold parse_qc_file at hq
          cases hfile : p.world.files (qcPath cfg e) with
          | none =>
            simp only [hfile, Result.error.injEq] at hq
            subst hq
            simp [Result.last, flush]
          | some c =>
            simp only [hfile] at hq
            split at hq <;> cases hq
    | reread q =>
      refine ⟨1, ?_, ?_⟩ <;>
        · unfold parse_qc_file at hq
          cases hfile : p.world.files (qcPath cfg e) with
          | none => simp only [hfile] at hq; cases hq
          | some c =>
            simp only [hfile] at hq
            split at hq
            · simp only [Result.reread.injEq] at hq
              subst hq
              simp [Result.last]
            · cases hq
    | ok q =>
      have hqs : q.scanned = p.scanned ++ [e] ∧ q.opens = p.opens ++ [qcPath cfg e] := by
        unfold parse_qc_file at hq
        cases hfile : p.world.files (qcPath cfg e) with
        | none => simp only [hfile] at hq; cases hq
        | some c =>
          simp only [hfile] at hq
          split at hq
          · cases hq
          · simp only [Result.ok.injEq] at hq
            subst hq
            exact ⟨rfl, rfl⟩
      obtain ⟨k, hk1, hk2⟩ := ih q
      refine ⟨k + 1, ?_, ?_⟩
      · simp only []
        rw [hk1, hqs.1]
        simp
      · simp only []
        rw [hk2, hqs.2]
        simp

theorem replace_slashes_length (s : Str) : (replace_slashes s).length = s.length := by
  simp [replace_slashes]

theorem manifestEntries_cons (buf : Str) (rest : List Str) :
    manifestEntries (buf :: rest)
      = if normalise buf = [] then manifestEntries rest
        else normalise buf :: manifestEntries rest := by
  unfold manifestEntries
  by_cases h : normalise buf = [] <;> simp [List.filter_cons, h]

/-- One iteration of the manifest loop, in terms of the normalised entry. -/
theorem progsLoop_cons (cfg : Config) (buf : Str) (rest : List Str) (first : Bool) (p : Proc) :
    progsLoop cfg (buf :: rest) first p
      = if normalise buf = [] then progsLoop cfg rest first p
        else if first then progsLoop cfg rest false p
        else match parse_qc_file cfg (normalise buf) p with
          | .error q => .error q
          | .reread q => .reread q
          | .ok q => progsLoop cfg rest false q := by
  have hlen : (normalise buf).length
      = (strip_whitespace (strip_directives (strip_comments buf))).length := by
    unfold normalise; exact replace_slashes_length _
  by_cases h : normalise buf = []
  · have h0 : (strip_whitespace (strip_directives (strip_comments buf))).length = 0 := by
      rw [← hlen, h]; rfl
    simp only [progsLoop, h0, h, if_true]
  · have h0 : ¬ (strip_whitespace (strip_directives (strip_comments buf))).length = 0 := by
      rw [← hlen]
      exact fun hz => h (List.length_eq_zero.mp hz)
    have h1 : ¬ replace_slashes (strip_whitespace (strip_directives (strip_comments buf))) = [] :=
      h
    cases first <;> simp [progsLoop, h0, h1, normalise]

/-- The manifest loop is the chain of scans of the entries of the manifest,
without the first of them when `first` is still set. -/
theorem progsLoop_eq_scanAll (cfg : Config) (lines : List Str) (first : Bool) (p : Proc) :
    progsLoop cfg lines first p
      = scanAll cfg (if first then yielded lines else manifestEntries lines) p := by
  induction lines generalizing first p with
  | nil => cases first <;> rfl
  | cons buf rest ih =>
    rw [progsLoop_cons]
    unfold yielded
    rw [manifestEntries_cons]
    by_cases h : normalise buf = []
    · rw [if_pos h, if_pos h, ih]
      rfl
    · rw [if_neg h, if_neg h]
      cases first
      · simp only [Bool.false_eq_true, if_false, scanAll]
        cases hq : parse_qc_file cfg (normalise buf) p with
        | error q => rfl
        | reread q => rfl
        | ok q =>
          have := ih false q
          simp only [Bool.false_eq_true, if_false] at this
          simp [this]
      · simp only [if_true, List.tail_cons]
        have := ih false p
        simpa using this

theorem open_files_ok (cfg : Config) (w : World) (c : Str)
    (hm : w.files (progsPath cfg) = some c) (ho : w.writable cfg.output = true) :
    open_files cfg (Proc.init w) = .ok (startProc cfg w) := by
  unfold open_files startProc scanWorld World.write Proc.init
  simp only [hm, ho, if_true, List.nil_append, List.singleton_append]
  by_cases ha : progsPath cfg = cfg.output <;> simp [ha, hm]

/-- The file system during the scan differs from the one the run started in
at the output path only. -/
theorem scanWorld_files_of_ne (cfg : Config) (w : World) (q : Str) (hq : q ≠ cfg.output) :
    (scanWorld cfg w).files q = w.files q := by
  simp [scanWorld, World.write, hq]

/-- A run whose manifest cannot be opened. -/
theorem run_manifest_missing (cfg : Config) (h : Nat) (w : World)
    (hm : w.files (progsPath cfg) = none) :
    run cfg h w = { status := .failure, helps := h, reported := none,
                    proc := { Proc.init w with opens := [progsPath cfg] } } := by
  unfold run open_files Proc.init
  simp [hm]

/-- A run whose output cannot be opened for writing. -/
theorem run_output_unwritable (cfg : Config) (h : Nat) (w : World) (c : Str)
    (hm : w.files (progsPath cfg) = some c) (ho : w.writable cfg.output = false) :
    run cfg h w = { status := .failure, helps := h, reported := none,
                    proc := { Proc.init w with opens := [progsPath cfg, cfg.output] } } := by
  unfold run open_files Proc.init
  simp [hm, ho]

/-- A run whose manifest and output open: the scans of the yielded entries. -/
theorem run_scan (cfg : Config) (h : Nat) (w : World) (c : Str)
    (hm : w.files (progsPath cfg) = some c) (ho : w.writable cfg.output = true) :
    run cfg h w =
      match scanAll cfg (runEntries cfg w) (startProc cfg w) with
      | .error q => { status := .failure, helps := h, reported := none, proc := q }
      | .reread q => { status := .unknown, helps := h, reported := none, proc := q }
      | .ok q => { status := .success, helps := h, reported := some q.count,
                   proc := close_files cfg q } := by
  unfold run
  rw [open_files_ok cfg w c hm ho]
  simp only [parse_progs_src]
  rw [progsLoop_eq_scanAll]
  simp only [if_true]
  have hent : yielded (readLines (startProc cfg w).input) = runEntries cfg w := rfl
  rw [hent]
  cases scanAll cfg (runEntries cfg w) (startProc cfg w) <;> rfl

/-- Either every entry opens, or there is a first one that does not. -/
theorem first_unopenable (ok : Str → Bool) (es : List Str) :
    (∀ e ∈ es, ok e = true)
      ∨ ∃ a e b, es = a ++ e :: b ∧ (∀ x ∈ a, ok x = true) ∧ ok e = false := by
  induction es with
  | nil => left; simp
  | cons x xs ih =>
    cases hx : ok x
    · right; exact ⟨[], x, xs, rfl, by simp, hx⟩
    · rcases ih with hall | ⟨a, e, b, hes, ha, he⟩
      · left
        intro y hy
        rcases List.mem_cons.mp hy with rfl | hy
        · exact hx
        · exact hall y hy
      · right
        refine ⟨x :: a, e, b, by simp [hes], ?_, he⟩
        intro y hy
        rcases List.mem_cons.mp hy with rfl | hy
        · exact hx
        · exact ha y hy

/-- The counter is 0 when the scans start. -/
theorem startProc_count (cfg : Config) (w : World) : (startProc cfg w).count < UINT_MOD := by
  show 0 < UINT_MOD
  decide

/-- A call of `parse_qc_file` that returns has recorded its entry and the path
it opened. -/
theorem parse_qc_file_ok_scanned (cfg : Config) (e : Str) (p q : Proc)
    (h : parse_qc_file cfg e p = .ok q) :
    q.scanned = p.scanned ++ [e] ∧ q.opens = p.opens ++ [qcPath cfg e] := by
  unfold parse_qc_file at h
  cases hfile : p.world.files (qcPath cfg e) with
  | none => simp only [hfile] at h; cases h
  | some c =>
    simp only [hfile] at h
    split at h
    · cases h
    · simp only [Result.ok.injEq] at h
      subst h
      exact ⟨rfl, rfl⟩

/-- A chain of scans that returns has passed every entry to `parse_qc_file`. -/
theorem scanAll_ok_scanned (cfg : Config) (es : List Str) (p q : Proc)
    (h : scanAll cfg es p = .ok q) : q.scanned = p.scanned ++ es := by
  induction es generalizing p with
  | nil =>
    simp only [scanAll, Result.ok.injEq] at h
    subst h
    simp
  | cons e es ih =>
    simp only [scanAll] at h
    cases hq : parse_qc_file cfg e p with
    | error r => rw [hq] at h; cases h
    | reread r => rw [hq] at h; cases h
    | ok r =>
      rw [hq] at h
      rw [ih r h, (parse_qc_file_ok_scanned cfg e p r hq).1]
      simp

/-- The manifest of a run is the one the file system holds, when the output is
another file. -/
theorem runEntries_of_ne (cfg : Config) (w : World) (hne : progsPath cfg ≠ cfg.output) :
    runEntries cfg w = yielded (fileLines w (progsPath cfg)) := by
  unfold runEntries fileLines
  rw [scanWorld_files_of_ne cfg w _ hne]

/-- The per-file outputs are those of the files the run started with, when none
of them is the output file. -/
theorem outOf_scanWorld (cfg : Config) (w : World) (es : List Str)
    (hsrc : ∀ e ∈ es, qcPath cfg e ≠ cfg.output) :
    outOf cfg (scanWorld cfg w) es = outOf cfg w es := by
  unfold outOf
  congr 1
  apply List.map_congr_left
  intro e he
  unfold fileLines
  rw [scanWorld_files_of_ne cfg w _ (hsrc e he)]

/-- The per-file counts are those of the files the run started with, when none
of them is the output file. -/
theorem countOf_scanWorld (cfg : Config) (w : World) (es : List Str)
    (hsrc : ∀ e ∈ es, qcPath cfg e ≠ cfg.output) :
    countOf cfg (scanWorld cfg w) es = countOf cfg w es := by
  unfold countOf
  congr 1
  apply List.map_congr_left
  intro e he
  unfold fileLines
  rw [scanWorld_files_of_ne cfg w _ (hsrc e he)]

/-- The sum of the per-file counts and the sum of the per-file block starts
agree once wrapped around. -/
theorem countOf_blockStarts (cfg : Config) (w : World) (es : List Str) :
    countOf cfg w es % UINT_MOD
      = (es.map (fun e => blockStarts (fileLines w (qcPath cfg e)))).sum % UINT_MOD := by
  unfold countOf
  induction es with
  | nil => rfl
  | cons e es ih =>
    simp only [List.map_cons, List.sum_cons]
    rw [Nat.add_mod, ih, scanFile_count, Nat.mod_mod, ← Nat.add_mod]

/-- The file of `n` blocks of two lines each. -/
theorem scanFile_blockFile (n : Nat) :
    scanFile (blockFile n)
      = { found := false, out := blockFile n, count := n % UINT_MOD } := by
  induction n with
  | zero => rfl
  | succ n ih =>
    have hsplit : blockFile (n + 1) = blockFile n ++ ["/*QUAKED a\n".toList, "*/\n".toList] := by
      unfold blockFile
      rw [List.replicate_succ', List.flatten_append]
      simp
    have hs : hasStart "/*QUAKED a\n".toList = true := by decide
    have he : hasEnd "*/\n".toList = true := by decide
    rw [hsplit]
    unfold scanFile at ih ⊢
    rw [qcLoop_append, ih]
    simp only [qcLoop, qcStep, hs, he, Bool.not_false, Bool.not_true, if_true,
      Bool.false_eq_true, if_false, List.append_assoc, List.singleton_append, Scan.mk.injEq,
      true_and]
    unfold UINT_MOD
    omega

/-- The file of `n` blocks has `n` lines that contain the start marker. -/
theorem blockFile_starts (n : Nat) : ((blockFile n).filter hasStart).length = n := by
  induction n with
  | zero => rfl
  | succ n ih =>
    have hs : hasStart "/*QUAKED a\n".toList = true := by decide
    have he : hasStart "*/\n".toList = false := by decide
    unfold blockFile at ih ⊢
    rw [List.replicate_succ, List.flatten_cons]
    simp only [List.cons_append, List.nil_append, List.filter_cons, hs, he, if_true,
      Bool.false_eq_true, if_false, List.length_cons, ih]

/-- The two ways a chain of scans ends when none of the files is the output
file: every file opened, or the first file that did not open ended the process. -/
theorem scanAll_cases (cfg : Config) (es : List Str) (p : Proc)
    (hsrc : ∀ e ∈ es, qcPath cfg e ≠ cfg.output) (hc : p.count < UINT_MOD) :
    ((∀ e ∈ es, (p.world.files (qcPath cfg e)).isSome = true)
        ∧ scanAll cfg es p = .ok { p with
            opens := p.opens ++ es.map (qcPath cfg),
            scanned := p.scanned ++ es,
            out := p.out ++ outOf cfg p.world es,
            count := (p.count + countOf cfg p.world es) % UINT_MOD })
      ∨ ∃ a e b, es = a ++ e :: b
        ∧ (∀ x ∈ a, (p.world.files (qcPath cfg x)).isSome = true)
        ∧ p.world.files (qcPath cfg e) = none
        ∧ scanAll cfg es p = .error (flush cfg { p with
            opens := p.opens ++ (a ++ [e]).map (qcPath cfg),
            scanned := p.scanned ++ (a ++ [e]),
            out := p.out ++ outOf cfg p.world a,
            count := (p.count + countOf cfg p.world a) % UINT_MOD }) := by
  rcases first_unopenable (fun e => (p.world.files (qcPath cfg e)).isSome) es
    with hall | ⟨a, e, b, hes, ha, he⟩
  · exact Or.inl ⟨hall, scanAll_ok cfg es p hall hsrc hc⟩
  · have he2 : p.world.files (qcPath cfg e) = none := by simpa using he
    refine Or.inr ⟨a, e, b, hes, ha, he2, ?_⟩
    rw [hes]
    exact scanAll_error cfg a b e p ha (fun x hx => hsrc x (by rw [hes]; simp [hx])) he2 hc

/-! ## The counter: C3 -/

/-- C3, as stated, fails. `nestedFile` has two lines that contain the start
marker, and scanning it raises the counter by one only: the second of them is
read inside the open block. And the counter is an `unsigned int`: scanning a
file of 2^32 blocks, each with one start-marker line, leaves it at 0. -/
theorem c3_count_counterexample :
    ((readLines nestedFile).filter hasStart).length = 2
      ∧ (scanFile (readLines nestedFile)).count = 1
      ∧ ((blockFile 4294967296).filter hasStart).length = 4294967296
      ∧ (scanFile (blockFile 4294967296)).count = 0 :=
  ⟨by decide, by decide, blockFile_starts 4294967296,
    by rw [scanFile_blockFile]; rfl⟩

/-- C3, amended: the counter counts, modulo 2^32, the lines that contain the
start marker and are read in the Outside state. Scanning a file on its own
leaves it at the number of these lines modulo 2^32; a call of `parse_qc_file`
that returns has raised `count` by that number, wrapping around; and the count
reported after a run none of whose scanned files is the output file is the sum
of these numbers over the scanned files, modulo 2^32. -/
theorem c3_count_block_starts (cfg : Config) (h : Nat) (w : World) :
    (∀ lines, (scanFile lines).count = blockStarts lines % UINT_MOD)
      ∧ (∀ f p q, p.count < UINT_MOD → parse_qc_file cfg f p = .ok q →
          q.count = (p.count + blockStarts (fileLines p.world (qcPath cfg f))) % UINT_MOD)
      ∧ (∀ n, (run cfg h w).reported = some n →
          (∀ e ∈ (run cfg h w).proc.scanned, qcPath cfg e ≠ cfg.output) →
          n = ((run cfg h w).proc.scanned.map
                (fun e => blockStarts (fileLines w (qcPath cfg e)))).sum % UINT_MOD) := by
  refine ⟨scanFile_count, ?_, ?_⟩
  · intro f p q hp hq
    rcases parse_qc_file_cases cfg f p hp with ⟨_, he⟩ | ⟨c, _, _, he⟩ | ⟨c, hfile, _, he⟩
    · rw [he] at hq; cases hq
    · rw [he] at hq; cases hq
    · rw [he] at hq
      cases hq
      simp only [fileLines, hfile, Option.getD_some, scanFile_count]
      unfold UINT_MOD
      omega
  · intro n hn
    cases hm : w.files (progsPath cfg) with
    | none => rw [run_manifest_missing cfg h w hm] at hn; cases hn
    | some c =>
      cases ho : w.writable cfg.output with
      | false => rw [run_output_unwritable cfg h w c hm ho] at hn; cases hn
      | true =>
        rw [run_scan cfg h w c hm ho] at hn ⊢
        cases hq : scanAll cfg (runEntries cfg w) (startProc cfg w) with
        | error q => rw [hq] at hn; cases hn
        | reread q => rw [hq] at hn; cases hn
        | ok q =>
          rw [hq] at hn
          simp only [Option.some.injEq] at hn
          have hq2 := scanAll_ok_inv cfg _ _ q (startProc_count cfg w) hq
          have hscanned : (close_files cfg q).scanned = runEntries cfg w := by
            rw [hq2]
            simp [close_files, flush, startProc]
          simp only [hscanned]
          intro hsrc
          rw [← hn, hq2]
          simp only [startProc, Nat.zero_add, Nat.mod_mod]
          rw [countOf_scanWorld cfg w _ hsrc, countOf_blockStarts]

/-- Witness of `c3_count_block_starts` on the run over `demoWorld`, which
reports one block. -/
theorem c3_count_block_starts_witness :
    (run defaultConfig 0 demoWorld).reported = some 1
      ∧ 1 = ((run defaultConfig 0 demoWorld).proc.scanned.map
          (fun e => blockStarts (fileLines demoWorld (qcPath defaultConfig e)))).sum % UINT_MOD :=
  ⟨by decide, (c3_count_block_starts defaultConfig 0 demoWorld).2.2 1 (by decide) (by decide)⟩

/-! ## The manifest reader: C4 -/

/-- C4: on every manifest, `parse_progs_src` is the chain of calls of
`parse_qc_file` on the non-empty normalised entries but the first, in manifest
order. When the loop returns, the entries passed are exactly those; when a call
exits the process they are an initial part of them. A line whose normalisation
is empty can be inserted or deleted anywhere without changing anything. -/
theorem c4_entries_passed (cfg : Config) (lines : List Str) (p : Proc) :
    progsLoop cfg lines true p = scanAll cfg ((manifestEntries lines).tail) p
      ∧ (match progsLoop cfg lines true p with
          | .ok q => q.scanned = p.scanned ++ (manifestEntries lines).tail
          | .error q => ∃ k, q.scanned = p.scanned ++ ((manifestEntries lines).tail).take k
          | .reread q => ∃ k, q.scanned = p.scanned ++ ((manifestEntries lines).tail).take k)
      ∧ (∀ a b l, normalise l = [] →
          manifestEntries (a ++ l :: b) = manifestEntries (a ++ b)
            ∧ progsLoop cfg (a ++ l :: b) true p = progsLoop cfg (a ++ b) true p) := by
  have heq : progsLoop cfg lines true p = scanAll cfg ((manifestEntries lines).tail) p := by
    rw [progsLoop_eq_scanAll]; rfl
  refine ⟨heq, ?_, ?_⟩
  · rw [heq]
    obtain ⟨k, hk, _⟩ := scanAll_trace cfg ((manifestEntries lines).tail) p
    cases hq : scanAll cfg ((manifestEntries lines).tail) p with
    | ok q => exact scanAll_ok_scanned cfg _ p q hq
    | error q => rw [hq] at hk; exact ⟨k, hk⟩
    | reread q => rw [hq] at hk; exact ⟨k, hk⟩
  · intro a b l hl
    have hent : manifestEntries (a ++ l :: b) = manifestEntries (a ++ b) := by
      unfold manifestEntries
      simp [List.filter_cons, hl]
    refine ⟨hent, ?_⟩
    rw [progsLoop_eq_scanAll, progsLoop_eq_scanAll]
    simp only [if_true, yielded, hent]

/-- Witness of `c4_entries_passed`: a comment line before the first entry and
a blank line after it do not move the reserved first slot. -/
theorem c4_entries_passed_witness :
    manifestEntries (readLines "// nothing\nprogs.dat\n\nfoo.qc\nbar.qc // comment\n".toList)
        = ["progs.dat".toList, "foo.qc".toList, "bar.qc".toList]
      ∧ manifestEntries ([] ++ "// nothing\n".toList :: ["progs.dat\n".toList, "foo.qc\n".toList])
        = manifestEntries ([] ++ ["progs.dat\n".toList, "foo.qc\n".toList])
      ∧ progsLoop defaultConfig
          ([] ++ "// nothing\n".toList :: ["progs.dat\n".toList, "foo.qc\n".toList]) true
          (Proc.init demoWorld)
        = progsLoop defaultConfig ([] ++ ["progs.dat\n".toList, "foo.qc\n".toList]) true
          (Proc.init demoWorld) :=
  ⟨by decide,
    (c4_entries_passed defaultConfig [] (Proc.init demoWorld)).2.2 []
      ["progs.dat\n".toList, "foo.qc\n".toList] "// nothing\n".toList (by decide)⟩

/-! ## The whole run: C5, C7, C8 -/

/-- A run that comes to scan its own output after writing to it is not followed
further: in `rereadWorld` the block of `foo.qc` has been written when
`output.def` is opened for reading, and the outcome is `unknown`, with no count
reported. -/
theorem run_rereadWorld :
    (run defaultConfig 0 rereadWorld).status = .unknown
      ∧ (run defaultConfig 0 rereadWorld).reported = none
      ∧ (run defaultConfig 0 rereadWorld).proc.scanned = ["foo.qc".toList, "output.def".toList]
      ∧ (run defaultConfig 0 rereadWorld).proc.out
        = ["/*QUAKED foo (1 0 0)\n".toList, "*/\n".toList] := by
  decide

/-- C5, as stated, fails when a yielded entry names the output file. In
`selfWorld` the manifest, the output and the one yielded entry `output.def`
all open, and `output.def` scanned on its own gives one block and the count 1;
but `open_files` has truncated it before it is scanned: the run succeeds with
nothing written and reports 0. -/
theorem c5_output_as_source_counterexample :
    (selfWorld.files (progsPath defaultConfig)).isSome = true
      ∧ selfWorld.writable defaultConfig.output = true
      ∧ yielded (fileLines selfWorld (progsPath defaultConfig)) = ["output.def".toList]
      ∧ (selfWorld.files (qcPath defaultConfig "output.def".toList)).isSome = true
      ∧ (scanFile (fileLines selfWorld (qcPath defaultConfig "output.def".toList))).out
        = ["/*QUAKED old\n".toList, "*/\n".toList]
      ∧ (scanFile (fileLines selfWorld (qcPath defaultConfig "output.def".toList))).count = 1
      ∧ (run defaultConfig 0 selfWorld).status = .success
      ∧ (run defaultConfig 0 selfWorld).proc.scanned = ["output.def".toList]
      ∧ (run defaultConfig 0 selfWorld).proc.out = []
      ∧ (run defaultConfig 0 selfWorld).reported = some 0 := by
  decide

/-- C5, amended: when the output path is neither the manifest path nor the path
of a yielded entry, and the manifest, the output and the file of every yielded
entry open, the run succeeds having scanned the entries the manifest yields,
the output stream is the concatenation, in manifest order, of the outputs of
scanning each yielded entry's file on its own from the Outside state, the
reported count is the sum of the per-file counts modulo 2^32, and the output
file ends up holding that stream. -/
theorem c5_run_concatenates (cfg : Config) (h : Nat) (w : World)
    (hm : (w.files (progsPath cfg)).isSome = true)
    (ho : w.writable cfg.output = true)
    (hall : ∀ e ∈ runEntries cfg w, (w.files (qcPath cfg e)).isSome = true)
    (hne : progsPath cfg ≠ cfg.output)
    (hsrc : ∀ e ∈ runEntries cfg w, qcPath cfg e ≠ cfg.output) :
    runEntries cfg w = yielded (fileLines w (progsPath cfg))
      ∧ (run cfg h w).status = .success
      ∧ (run cfg h w).proc.scanned = runEntries cfg w
      ∧ (run cfg h w).proc.out = ((runEntries cfg w).map
          (fun e => (scanFile (fileLines w (qcPath cfg e))).out)).flatten
      ∧ (run cfg h w).reported = some (((runEntries cfg w).map
          (fun e => (scanFile (fileLines w (qcPath cfg e))).count)).sum % UINT_MOD)
      ∧ (run cfg h w).proc.world.files cfg.output = some (run cfg h w).proc.out.flatten := by
  obtain ⟨c, hc⟩ := Option.isSome_iff_exists.mp hm
  have hall2 : ∀ e ∈ runEntries cfg w,
      ((startProc cfg w).world.files (qcPath cfg e)).isSome = true := by
    intro e he
    rw [show (startProc cfg w).world = scanWorld cfg w from rfl,
      scanWorld_files_of_ne cfg w _ (hsrc e he)]
    exact hall e he
  rw [run_scan cfg h w c hc ho, scanAll_ok cfg _ _ hall2 hsrc (startProc_count cfg w)]
  have hout := outOf_scanWorld cfg w _ hsrc
  have hcount := countOf_scanWorld cfg w _ hsrc
  unfold outOf at hout
  unfold countOf at hcount
  refine ⟨runEntries_of_ne cfg w hne, rfl, ?_, ?_, ?_, ?_⟩
  · simp [close_files, flush, startProc]
  · simp only [close_files, flush, startProc, List.nil_append, outOf]
    exact hout
  · simp only [startProc, Nat.zero_add, countOf, Option.some.injEq]
    rw [hcount]
  · simp [close_files, flush, startProc, World.write]

/-- Witness of `c5_run_concatenates`: the manifest `progs.dat`, `foo.qc`,
`bar.qc // comment` with one block in `foo.qc` and none in `bar.qc` gives
exactly the block of `foo.qc` and the count 1. -/
theorem c5_run_concatenates_witness :
    (run defaultConfig 0 demoWorld).status = .success
      ∧ (run defaultConfig 0 demoWorld).proc.out
        = ["/*QUAKED foo (1 0 0)\n".toList, "body\n".toList, "*/\n".toList]
      ∧ (run defaultConfig 0 demoWorld).reported = some 1 :=
  have h := c5_run_concatenates defaultConfig 0 demoWorld (by decide) (by decide) (by decide)
    (by decide) (by decide)
  ⟨h.2.1, h.2.2.2.1.trans (by decide), h.2.2.2.2.1.trans (by decide)⟩

/-- C7, as stated, fails when a yielded entry names the output file. In
`createdWorld` the file system holds no file at the path of the one yielded
entry, `output.def`, so that entry names a file that cannot be opened; but
`open_files` creates it before it is scanned, and the run ends with success. -/
theorem c7_created_output_counterexample :
    (createdWorld.files (progsPath defaultConfig)).isSome = true
      ∧ createdWorld.writable defaultConfig.output = true
      ∧ yielded (fileLines createdWorld (progsPath defaultConfig)) = ["output.def".toList]
      ∧ createdWorld.files (qcPath defaultConfig "output.def".toList) = none
      ∧ (run defaultConfig 0 createdWorld).status = .success
      ∧ (run defaultConfig 0 createdWorld).proc.scanned = ["output.def".toList] := by
  decide

/-- C7, amended: when the output path is neither the manifest path nor the path
of a yielded entry, a run fails exactly when the manifest cannot be opened, or
the output cannot be opened for writing, or some yielded entry names a file
that cannot be opened; otherwise it succeeds. Nothing is scanned when the
manifest or the output fails, and when entry `e` is the first whose file does
not open, the entries scanned are those before `e` and `e` itself: no entry
after it is passed to `parse_qc_file`. -/
theorem c7_failure_iff (cfg : Config) (h : Nat) (w : World)
    (hne : progsPath cfg ≠ cfg.output)
    (hsrc : ∀ e ∈ runEntries cfg w, qcPath cfg e ≠ cfg.output) :
    runEntries cfg w = yielded (fileLines w (progsPath cfg))
      ∧ ((run cfg h w).status = .failure ↔
        (w.files (progsPath cfg) = none ∨ w.writable cfg.output = false
          ∨ ∃ e ∈ runEntries cfg w, w.files (qcPath cfg e) = none))
      ∧ ((run cfg h w).status = .success ↔
        ¬ (w.files (progsPath cfg) = none ∨ w.writable cfg.output = false
          ∨ ∃ e ∈ runEntries cfg w, w.files (qcPath cfg e) = none))
      ∧ (w.files (progsPath cfg) = none ∨ w.writable cfg.output = false →
          (run cfg h w).proc.scanned = [])
      ∧ (∀ a e b, w.files (progsPath cfg) ≠ none → w.writable cfg.output = true →
          runEntries cfg w = a ++ e :: b →
          (∀ x ∈ a, w.files (qcPath cfg x) ≠ none) →
          w.files (qcPath cfg e) = none →
          (run cfg h w).status = .failure ∧ (run cfg h w).proc.scanned = a ++ [e]) := by
  have htr : ∀ e ∈ runEntries cfg w,
      (startProc cfg w).world.files (qcPath cfg e) = w.files (qcPath cfg e) :=
    fun e he => scanWorld_files_of_ne cfg w _ (hsrc e he)
  have hlast : ∀ a e b, w.files (progsPath cfg) ≠ none → w.writable cfg.output = true →
      runEntries cfg w = a ++ e :: b →
      (∀ x ∈ a, w.files (qcPath cfg x) ≠ none) →
      w.files (qcPath cfg e) = none →
      (run cfg h w).status = .failure ∧ (run cfg h w).proc.scanned = a ++ [e] := by
    intro a e b hm ho hes ha he
    obtain ⟨c, hc⟩ := Option.ne_none_iff_exists'.mp hm
    have hmem : ∀ x ∈ a ++ e :: b, x ∈ runEntries cfg w := fun x hx => by rw [hes]; exact hx
    have ha2 : ∀ x ∈ a, ((startProc cfg w).world.files (qcPath cfg x)).isSome = true := by
      intro x hx
      rw [htr x (hmem x (by simp [hx]))]
      exact Option.isSome_iff_ne_none.mpr (ha x hx)
    have he2 : (startProc cfg w).world.files (qcPath cfg e) = none := by
      rw [htr e (hmem e (by simp))]
      exact he
    rw [run_scan cfg h w c hc ho, hes, scanAll_error cfg a b e _ ha2
      (fun x hx => hsrc x (hmem x (by simp [hx]))) he2 (startProc_count cfg w)]
    simp [flush, startProc]
  have hboth : ((run cfg h w).status = .failure ↔
        (w.files (progsPath cfg) = none ∨ w.writable cfg.output = false
          ∨ ∃ e ∈ runEntries cfg w, w.files (qcPath cfg e) = none))
      ∧ ((run cfg h w).status = .success ↔
        ¬ (w.files (progsPath cfg) = none ∨ w.writable cfg.output = false
          ∨ ∃ e ∈ runEntries cfg w, w.files (qcPath cfg e) = none)) := by
    cases hm : w.files (progsPath cfg) with
    | none => simp [run_manifest_missing cfg h w hm]
    | some c =>
      cases ho : w.writable cfg.output with
      | false => simp [run_output_unwritable cfg h w c hm ho]
      | true =>
        rw [run_scan cfg h w c hm ho]
        rcases scanAll_cases cfg (runEntries cfg w) (startProc cfg w) hsrc (startProc_count cfg w)
          with ⟨hall, hok⟩ | ⟨a, e, b, hes, _, he, herr⟩
        · rw [hok]
          have hnone : ¬ ∃ e ∈ runEntries cfg w, w.files (qcPath cfg e) = none := by
            rintro ⟨e, he, hnone⟩
            have := hall e he
            rw [htr e he, hnone] at this
            cases this
          simp [hnone]
        · rw [herr]
          have hsome : ∃ e ∈ runEntries cfg w, w.files (qcPath cfg e) = none :=
            ⟨e, by rw [hes]; simp, by rw [← htr e (by rw [hes]; simp)]; exact he⟩
          simp [hsome]
  refine ⟨runEntries_of_ne cfg w hne, hboth.1, hboth.2, ?_, hlast⟩
  rintro (hm | ho)
  · rw [run_manifest_missing cfg h w hm]; rfl
  · cases hm : w.files (progsPath cfg) with
    | none => rw [run_manifest_missing cfg h w hm]; rfl
    | some c => rw [run_output_unwritable cfg h w c hm ho]; rfl

/-- Witness of `c7_failure_iff`: in `brokenWorld` the second yielded entry does
not open; the run fails having scanned the first two entries and not the third. -/
theorem c7_failure_iff_witness :
    runEntries defaultConfig brokenWorld
        = ["foo.qc".toList, "missing.qc".toList, "bar.qc".toList]
      ∧ (run defaultConfig 0 brokenWorld).status = .failure
      ∧ (run defaultConfig 0 brokenWorld).proc.scanned = ["foo.qc".toList] ++ ["missing.qc".toList] :=
  ⟨by decide,
    (c7_failure_iff defaultConfig 0 brokenWorld (by decide) (by decide)).2.2.2.2
      ["foo.qc".toList] "missing.qc".toList
      ["bar.qc".toList] (by decide) (by decide) (by decide) (by decide) (by decide)⟩

/-- C8: when the manifest cannot be opened the run fails at once: the only
`fopen` is the one of the manifest, nothing is written or reported, and the
file system is left as it was, the output path included. -/
theorem c8_manifest_failure_keeps_files (cfg : Config) (h : Nat) (w : World)
    (hm : w.files (progsPath cfg) = none) :
    (run cfg h w).status = .failure
      ∧ (run cfg h w).proc.opens = [progsPath cfg]
      ∧ (run cfg h w).proc.out = []
      ∧ (run cfg h w).reported = none
      ∧ (run cfg h w).proc.world = w := by
  rw [run_manifest_missing cfg h w hm]
  exact ⟨rfl, rfl, rfl, rfl, rfl⟩

/-- Witness of `c8_manifest_failure_keeps_files` on a file system without files. -/
theorem c8_manifest_failure_keeps_files_witness :
    (run defaultConfig 0 emptyWorld).status = .failure
      ∧ (run defaultConfig 0 emptyWorld).proc.opens = [progsPath defaultConfig]
      ∧ (run defaultConfig 0 emptyWorld).proc.out = []
      ∧ (run defaultConfig 0 emptyWorld).reported = none
      ∧ (run defaultConfig 0 emptyWorld).proc.world = emptyWorld :=
  c8_manifest_failure_keeps_files defaultConfig 0 emptyWorld rfl

/-! ## Normalisation of a manifest line: C6 -/

theorem strstr_comment_cons (c : Char) (cs : Str) :
    strstr (c :: cs) "//".toList
      = if c = '/' ∧ cs.head? = some '/' then some 0
        else (strstr cs "//".toList).map (· + 1) := by
  have hlit : "//".toList = ['/', '/'] := rfl
  rw [hlit]
  cases cs with
  | nil => by_cases hc : c = '/' <;> simp [strstr, startsWith, hc]
  | cons d ds =>
    by_cases hc : c = '/' <;> by_cases hd : d = '/' <;> simp [strstr, startsWith, hc, hd]

theorem strip_comments_cons (c : Char) (cs : Str) :
    strip_comments (c :: cs)
      = if c = '/' ∧ cs.head? = some '/' then [] else c :: strip_comments cs := by
  unfold strip_comments
  rw [strstr_comment_cons]
  by_cases h : c = '/' ∧ cs.head? = some '/'
  · simp [h]
  · rw [if_neg h, if_neg h]
    cases strstr cs "//".toList <;> simp

theorem strip_comments_nil : strip_comments [] = [] := by
  decide

theorem strip_directives_cons (c : Char) (cs : Str) :
    strip_directives (c :: cs) = if c = '#' then [] else c :: strip_directives cs := by
  have hlit : "#".toList = ['#'] := rfl
  unfold strip_directives
  rw [hlit]
  by_cases h : c = '#'
  · simp [strstr, startsWith, h]
  · simp only [strstr, startsWith, if_neg h]
    cases hs : strstr cs ['#'] <;> simp [h]

theorem strip_directives_nil : strip_directives [] = [] := by
  decide

/-- The three cuts together stop at the first position where one of them applies. -/
theorem strip_all_cons (c : Char) (cs : Str) :
    strip_whitespace (strip_directives (strip_comments (c :: cs)))
      = if (c = '/' ∧ cs.head? = some '/') ∨ c = '#' ∨ isspace c = true then []
        else c :: strip_whitespace (strip_directives (strip_comments cs)) := by
  rw [strip_comments_cons]
  by_cases h1 : c = '/' ∧ cs.head? = some '/'
  · simp [h1, strip_directives_nil, strip_whitespace]
  · rw [if_neg h1, strip_directives_cons]
    by_cases h2 : c = '#'
    · simp [h2, strip_whitespace]
    · rw [if_neg h2]
      by_cases h3 : isspace c = true
      · simp [h3, strip_whitespace]
      · simp [h1, h2, h3, strip_whitespace]

theorem take_cut_cons (c : Char) (cs : Str) :
    (c :: cs).take (min (firstComment (c :: cs))
        (min (firstDirective (c :: cs)) (firstSpace (c :: cs))))
      = if (c = '/' ∧ cs.head? = some '/') ∨ c = '#' ∨ isspace c = true then []
        else c :: cs.take (min (firstComment cs) (min (firstDirective cs) (firstSpace cs))) := by
  unfold firstDirective firstSpace
  simp only [firstComment, List.findIdx_cons]
  by_cases h1 : c = '/' ∧ cs.head? = some '/'
  · simp [h1]
  · by_cases h2 : c = '#'
    · simp [h2]
    · by_cases h3 : isspace c = true
      · simp [h3]
      · simp [h1, h2, h3, Nat.succ_min_succ]

theorem strip_all_eq_take (line : Str) :
    strip_whitespace (strip_directives (strip_comments line))
      = line.take (min (firstComment line) (min (firstDirective line) (firstSpace line))) := by
  induction line with
  | nil => decide
  | cons c cs ih => rw [strip_all_cons, take_cut_cons, ih]

/-- C6: the normalised entry of a manifest line is the part of the line before
the earliest of its first `//`, its first `#` and its first whitespace
character (the whole line if there is none), with every backslash replaced by
`/`; so a line that begins with whitespace normalises to the empty string and
the manifest loop skips it. -/
theorem c6_normalised_entry (line : Str) :
    replace_slashes (strip_whitespace (strip_directives (strip_comments line)))
        = normaliseSpec line
      ∧ ∀ (c : Char) (rest : Str), isspace c = true → line = c :: rest →
          replace_slashes (strip_whitespace (strip_directives (strip_comments line))) = []
            ∧ ∀ cfg more first p,
                progsLoop cfg (line :: more) first p = progsLoop cfg more first p := by
  refine ⟨?_, ?_⟩
  · rw [strip_all_eq_take]
    rfl
  · intro c rest hc hline
    have hnil : replace_slashes (strip_whitespace (strip_directives (strip_comments line)))
        = [] := by
      rw [hline, strip_all_cons]
      simp [hc, replace_slashes]
    refine ⟨hnil, ?_⟩
    intro cfg more first p
    have hnorm : normalise line = [] := hnil
    rw [progsLoop_cons, if_pos hnorm]

/-- Witness of `c6_normalised_entry`: a line that begins with a blank. -/
theorem c6_normalised_entry_witness :
    replace_slashes (strip_whitespace (strip_directives (strip_comments " foo.qc\n".toList)))
        = []
      ∧ ∀ cfg more first p,
          progsLoop cfg (" foo.qc\n".toList :: more) first p = progsLoop cfg more first p :=
  (c6_normalised_entry " foo.qc\n".toList).2 ' ' "foo.qc\n".toList (by decide) (by decide)

/-! ## Argument resolution: C9 -/

theorem strchr_isSome_iff (s : Str) (c : Char) : (strchr s c).isSome = true ↔ c ∈ s := by
  induction s with
  | nil => simp [strchr]
  | cons d ds ih =>
    by_cases h : d = c
    · simp [strchr, h]
    · have h2 : ¬ c = d := fun e => h e.symm
      simp [strchr, h, h2, ← ih]

/-- The argument loop exits exactly when some token holds a `?`, and then help
has been displayed. -/
theorem argLoop_cases (argv : List Str) (cfg : Config) (h : Nat) :
    ((∃ t ∈ argv, '?' ∈ t) ∧ ∃ h2, argLoop argv cfg h = .exit h2 ∧ 0 < h2)
      ∨ ((¬ ∃ t ∈ argv, '?' ∈ t) ∧ ∃ cfg2 h2, argLoop argv cfg h = .cont cfg2 h2) := by
  induction argv generalizing cfg h with
  | nil => right; exact ⟨by simp, cfg, h, rfl⟩
  | cons a rest ih =>
    by_cases ha : '?' ∈ a
    · left
      refine ⟨⟨a, by simp, ha⟩, h + 1, ?_, Nat.succ_pos h⟩
      simp [argLoop, (strchr_isSome_iff a '?').mpr ha]
    · have hnone : (strchr a '?').isSome = false := by
        cases hs : (strchr a '?').isSome
        · rfl
        · exact absurd ((strchr_isSome_iff a '?').mp hs) ha
      have hstep : ∃ cfg1 h1, argLoop (a :: rest) cfg h = argLoop rest cfg1 h1 := by
        simp only [argLoop, hnone, Bool.false_eq_true, if_false]
        exact ⟨_, _, rfl⟩
      obtain ⟨cfg1, h1, hstep⟩ := hstep
      rcases ih cfg1 h1 with ⟨⟨t, ht, hq⟩, h2, he, hpos⟩ | ⟨hno, cfg2, h2, hc⟩
      · left
        exact ⟨⟨t, by simp [ht], hq⟩, h2, by rw [hstep, he], hpos⟩
      · right
        refine ⟨?_, cfg2, h2, by rw [hstep, hc]⟩
        rintro ⟨t, ht, hq⟩
        rcases List.mem_cons.mp ht with rfl | ht
        · exact ha hq
        · exact hno ⟨t, ht, hq⟩

/-- The paths a run passes to `fopen`: the manifest first, then, if it opened,
the output and the file of each entry scanned; the entries scanned are an
initial part of the yielded entries. -/
theorem run_trace (cfg : Config) (h : Nat) (w : World) :
    (∃ k, (run cfg h w).proc.scanned = (runEntries cfg w).take k)
      ∧ ((run cfg h w).proc.opens = [progsPath cfg]
        ∨ (run cfg h w).proc.opens
            = progsPath cfg :: cfg.output :: (run cfg h w).proc.scanned.map (qcPath cfg)) := by
  cases hm : w.files (progsPath cfg) with
  | none =>
    rw [run_manifest_missing cfg h w hm]
    exact ⟨⟨0, by simp [Proc.init]⟩, Or.inl rfl⟩
  | some c =>
    cases ho : w.writable cfg.output with
    | false =>
      rw [run_output_unwritable cfg h w c hm ho]
      exact ⟨⟨0, by simp [Proc.init]⟩, Or.inr (by simp [Proc.init])⟩
    | true =>
      rw [run_scan cfg h w c hm ho]
      obtain ⟨k, hk1, hk2⟩ := scanAll_trace cfg (runEntries cfg w) (startProc cfg w)
      have hs : (startProc cfg w).scanned = [] := rfl
      have hp : (startProc cfg w).opens = [progsPath cfg, cfg.output] := rfl
      rw [hs, List.nil_append] at hk1
      rw [hp] at hk2
      cases hq : scanAll cfg (runEntries cfg w) (startProc cfg w) with
      | ok q =>
        rw [hq] at hk1 hk2
        simp only [Result.last] at hk1 hk2
        exact ⟨⟨k, hk1⟩, Or.inr (by
          show q.opens = progsPath cfg :: cfg.output :: q.scanned.map (qcPath cfg)
          rw [hk2, hk1]; rfl)⟩
      | error q =>
        rw [hq] at hk1 hk2
        simp only [Result.last] at hk1 hk2
        exact ⟨⟨k, hk1⟩, Or.inr (by
          show q.opens = progsPath cfg :: cfg.output :: q.scanned.map (qcPath cfg)
          rw [hk2, hk1]; rfl)⟩
      | reread q =>
        rw [hq] at hk1 hk2
        simp only [Result.last] at hk1 hk2
        exact ⟨⟨k, hk1⟩, Or.inr (by
          show q.opens = progsPath cfg :: cfg.output :: q.scanned.map (qcPath cfg)
          rw [hk2, hk1]; rfl)⟩

/-- C9: the run ends in the Argument Resolver exactly when some token contains
`?`; it then ends with help displayed and success status, no file opened and the
file system untouched. When no token contains `?` the resolver returns a
Configuration and the run goes on to open the manifest. -/
theorem c9_help_exit (argv : List Str) (w : World) :
    ((∃ h, resolve argv = .exit h) ↔ ∃ t ∈ argv, '?' ∈ t)
      ∧ ((∃ t ∈ argv, '?' ∈ t) →
          (main argv w).status = .success ∧ 0 < (main argv w).helps
            ∧ (main argv w).proc.opens = [] ∧ (main argv w).proc.world = w
            ∧ (main argv w).reported = none)
      ∧ ((¬ ∃ t ∈ argv, '?' ∈ t) →
          ∃ cfg h, resolve argv = .cont cfg h ∧ main argv w = run cfg h w
            ∧ (main argv w).proc.opens.head? = some (progsPath cfg)) := by
  rcases argLoop_cases argv Config.zero 0 with ⟨hq, h2, he, hpos⟩ | ⟨hno, cfg2, h2, hc⟩
  · have hres : resolve argv = .exit h2 := by simp [resolve, he]
    refine ⟨⟨fun _ => hq, fun _ => ⟨h2, hres⟩⟩, ?_, fun hn => absurd hq hn⟩
    intro _
    have hmain : main argv w
        = { status := .success, helps := h2, reported := none, proc := Proc.init w } := by
      simp [main, hres]
    rw [hmain]
    exact ⟨rfl, hpos, rfl, rfl, rfl⟩
  · have hres : resolve argv = .cont (applyDefaults cfg2) h2 := by simp [resolve, hc]
    refine ⟨⟨?_, fun hq => absurd hq hno⟩, fun hq => absurd hq hno, ?_⟩
    · rintro ⟨h, hx⟩
      rw [hres] at hx
      cases hx
    · intro _
      refine ⟨applyDefaults cfg2, h2, hres, by simp [main, hres], ?_⟩
      simp only [main, hres]
      rcases (run_trace (applyDefaults cfg2) h2 w).2 with ho | ho <;> rw [ho] <;> rfl

/-- Witness of `c9_help_exit`: a `?` inside the value of `-path` ends the run
with help and success before any file is opened. -/
theorem c9_help_exit_witness :
    (main ["-path".toList, "a?".toList] demoWorld).status = .success
      ∧ 0 < (main ["-path".toList, "a?".toList] demoWorld).helps
      ∧ (main ["-path".toList, "a?".toList] demoWorld).proc.opens = []
      ∧ (main ["-path".toList, "a?".toList] demoWorld).proc.world = demoWorld
      ∧ (main ["-path".toList, "a?".toList] demoWorld).reported = none :=
  (c9_help_exit ["-path".toList, "a?".toList] demoWorld).2.1 (by decide)

/-! ## Paths passed to `fopen`: C10 -/

theorem replace_slashes_no_backslash (s : Str) : '\\' ∉ replace_slashes s := by
  unfold replace_slashes
  intro hm
  obtain ⟨c, _, hc⟩ := List.mem_map.mp hm
  by_cases h : c = '\\'
  · rw [if_pos h] at hc
    exact absurd hc (by decide)
  · rw [if_neg h] at hc
    exact h hc

/-- The last token, when it holds no `?`, can only set `verbose` or display help. -/
theorem argLoop_last (d : Str) (cfg : Config) (h : Nat) (hq : '?' ∉ d) :
    ∃ v h2, argLoop [d] cfg h = .cont { cfg with verbose := v } h2 := by
  have hnone : (strchr d '?').isSome = false := by
    cases hs : (strchr d '?').isSome
    · rfl
    · exact absurd ((strchr_isSome_iff d '?').mp hs) hq
  simp only [argLoop, hnone, Bool.false_eq_true, if_false, setPath, setProgs, setOutput]
  split_ifs <;> exact ⟨_, _, rfl⟩

/-- The configuration resolved from `-path d`. -/
theorem resolve_path (d : Str) (hq : '?' ∉ d) :
    ∃ h v, resolve ["-path".toList, d] = .cont (pathConfig d v) h := by
  have hp : (strchr "-path".toList '?').isSome = false := by decide
  have e1 : ¬ "-path".toList = "-verbose".toList := by decide
  have e2 : ¬ "-path".toList = "-progs".toList := by decide
  have e3 : ¬ "-path".toList = "-output".toList := by decide
  have hstep : argLoop ["-path".toList, d] Config.zero 0
      = argLoop [d] { Config.zero with path := replace_slashes (snprintf STRING_MAX d) } 0 := by
    rw [argLoop]
    simp only [hp, e1, e2, e3, Bool.false_eq_true, if_false, if_true, setPath]
  obtain ⟨v, h2, hlast⟩ := argLoop_last d
    { Config.zero with path := replace_slashes (snprintf STRING_MAX d) } 0 hq
  refine ⟨h2, v, ?_⟩
  unfold resolve
  rw [hstep, hlast]
  rfl

/-- The run after `-path d`. -/
theorem main_path (d : Str) (w : World) (hq : '?' ∉ d) :
    ∃ h v, main ["-path".toList, d] w = run (pathConfig d v) h w := by
  obtain ⟨h, v, hres⟩ := resolve_path d hq
  refine ⟨h, v, ?_⟩
  unfold main
  rw [hres]

/-- The entries of a manifest hold no backslash. -/
theorem manifestEntries_no_backslash (lines : List Str) (e : Str)
    (he : e ∈ manifestEntries lines) : '\\' ∉ e := by
  unfold manifestEntries at he
  obtain ⟨l, _, rfl⟩ := List.mem_map.mp (List.mem_filter.mp he).1
  exact replace_slashes_no_backslash _

/-- The `fopen` calls of a run with `-path d`. -/
theorem path_run_opens (d : Str) (w : World) (hq : '?' ∉ d) :
    ((main ["-path".toList, d] w).proc.opens
        = [if d = [] then "progs.src".toList
           else (replace_slashes (d.take 1023) ++ "/".toList ++ "progs.src".toList).take 1023]
      ∨ (main ["-path".toList, d] w).proc.opens
        = (if d = [] then "progs.src".toList
           else (replace_slashes (d.take 1023) ++ "/".toList ++ "progs.src".toList).take 1023)
          :: "output.def".toList
          :: (main ["-path".toList, d] w).proc.scanned.map
              (fun e => if d = [] then e
                        else (replace_slashes (d.take 1023) ++ "/".toList ++ e).take 1023))
      ∧ ∀ e ∈ (main ["-path".toList, d] w).proc.scanned, '\\' ∉ e := by
  obtain ⟨h, v, hmain⟩ := main_path d w hq
  have hlen : (pathConfig d v).path.length = 0 ↔ d = [] := by
    unfold pathConfig
    rw [replace_slashes_length]
    cases d <;> simp [snprintf, STRING_MAX]
  have hprogs : progsPath (pathConfig d v)
      = if d = [] then "progs.src".toList
        else (replace_slashes (d.take 1023) ++ "/".toList ++ "progs.src".toList).take 1023 := by
    unfold progsPath
    by_cases hd : d = []
    · rw [if_pos hd, if_neg (by rw [hlen.mpr hd]; exact Nat.lt_irrefl 0)]
      rfl
    · rw [if_neg hd, if_pos (Nat.pos_of_ne_zero (fun hz => hd (hlen.mp hz)))]
      rfl
  have hqc : qcPath (pathConfig d v)
      = fun e => if d = [] then e
          else (replace_slashes (d.take 1023) ++ "/".toList ++ e).take 1023 := by
    funext e
    unfold qcPath
    by_cases hd : d = []
    · rw [if_pos hd, if_neg (by rw [hlen.mpr hd]; exact fun hne => hne rfl)]
    · rw [if_neg hd, if_pos (fun hz => hd (hlen.mp hz))]
      rfl
  obtain ⟨⟨k, hk⟩, hopens⟩ := run_trace (pathConfig d v) h w
  have hout : (pathConfig d v).output = "output.def".toList := rfl
  rw [hprogs, hqc, hout] at hopens
  rw [hmain]
  refine ⟨hopens, ?_⟩
  intro e he
  rw [hk] at he
  exact manifestEntries_no_backslash _ e (List.mem_of_mem_tail (List.mem_of_mem_take he))

/-- C10, as stated, fails for a long `-path` value. With `d` made of 1100
letters `a` (no backslash, so `d'` is `d`), the only path opened on the empty
file system is the first 1023 characters of `d`, not `d'/progs.src`: `path` and
the composed file name are cut to the size of their buffers. -/
theorem c10_long_path_counterexample :
    '?' ∉ List.replicate 1100 'a'
      ∧ replace_slashes (List.replicate 1100 'a') = List.replicate 1100 'a'
      ∧ (main ["-path".toList, List.replicate 1100 'a'] emptyWorld).proc.opens
        = [List.replicate 1023 'a']
      ∧ List.replicate 1023 'a' ≠ List.replicate 1100 'a' ++ "/progs.src".toList := by
  have hgen : ∀ n m : Nat, m = n + 1023 →
      '?' ∉ List.replicate m 'a'
        ∧ replace_slashes (List.replicate m 'a') = List.replicate m 'a'
        ∧ (main ["-path".toList, List.replicate m 'a'] emptyWorld).proc.opens
          = [List.replicate 1023 'a']
        ∧ List.replicate 1023 'a' ≠ List.replicate m 'a' ++ "/progs.src".toList := by
    intro n m hm
    have hq : '?' ∉ List.replicate m 'a' := by
      intro hmem
      exact absurd (List.eq_of_mem_replicate hmem) (by decide)
    have hrep : ∀ k, replace_slashes (List.replicate k 'a') = List.replicate k 'a' := by
      intro k
      unfold replace_slashes
      rw [List.map_replicate, if_neg (by decide)]
    have hmin : min 1023 m = 1023 := by omega
    have hP : ∀ v, (pathConfig (List.replicate m 'a') v).path = List.replicate 1023 'a' := by
      intro v
      show replace_slashes ((List.replicate m 'a').take 1023) = _
      rw [List.take_replicate, hmin, hrep]
    refine ⟨hq, hrep m, ?_, ?_⟩
    · obtain ⟨h, v, hmain⟩ := main_path (List.replicate m 'a') emptyWorld hq
      rw [hmain, run_manifest_missing _ h emptyWorld rfl]
      show [progsPath (pathConfig (List.replicate m 'a') v)] = _
      unfold progsPath
      rw [hP v, if_pos (by rw [List.length_replicate]; decide)]
      show [(List.replicate 1023 'a' ++ "/".toList ++ (pathConfig _ v).progs).take 1023] = _
      rw [List.append_assoc, List.take_left' (List.length_replicate 1023 'a')]
    · intro heq
      have hl := congrArg List.length heq
      have h10 : "/progs.src".toList.length = 10 := rfl
      rw [List.length_append, List.length_replicate, List.length_replicate, h10] at hl
      omega
  exact hgen 77 1100 (by decide)

/-- C10, amended: with `d'` the first 1023 characters of `d` with each backslash
replaced by `/` (all of `d`, at the same length, when `d` has at most 1023
characters), a run with `-path d` opens the manifest as `d'/progs.src` cut to
its first 1023 characters and each scanned entry `e` as `d'/e` cut to its first
1023 characters, hence as `d'/progs.src` and `d'/e` whenever these fit in 1023
characters, and as `progs.src` and `e` alone when `d` is empty; the output is
opened as `output.def`; none of the opened paths contains a backslash. -/
theorem c10_open_paths (d : Str) (w : World) (hq : '?' ∉ d) :
    (∃ h v, resolve ["-path".toList, d]
        = .cont { path := replace_slashes (d.take 1023), progs := "progs.src".toList,
                  output := "output.def".toList, verbose := v } h)
      ∧ (d.length ≤ 1023 → replace_slashes (d.take 1023) = replace_slashes d
          ∧ (replace_slashes d).length = d.length)
      ∧ ((main ["-path".toList, d] w).proc.opens
          = [if d = [] then "progs.src".toList
             else (replace_slashes (d.take 1023) ++ "/".toList ++ "progs.src".toList).take 1023]
        ∨ (main ["-path".toList, d] w).proc.opens
          = (if d = [] then "progs.src".toList
             else (replace_slashes (d.take 1023) ++ "/".toList ++ "progs.src".toList).take 1023)
            :: "output.def".toList
            :: (main ["-path".toList, d] w).proc.scanned.map
                (fun e => if d = [] then e
                          else (replace_slashes (d.take 1023) ++ "/".toList ++ e).take 1023))
      ∧ (∀ e : Str, (replace_slashes (d.take 1023)).length + 1 + e.length ≤ 1023 →
          (replace_slashes (d.take 1023) ++ "/".toList ++ e).take 1023
            = replace_slashes (d.take 1023) ++ "/".toList ++ e)
      ∧ ∀ p ∈ (main ["-path".toList, d] w).proc.opens, '\\' ∉ p := by
  obtain ⟨hopens, hscanned⟩ := path_run_opens d w hq
  have hP : '\\' ∉ replace_slashes (d.take 1023) := replace_slashes_no_backslash _
  have hjoin : ∀ e : Str, '\\' ∉ e →
      '\\' ∉ (if d = [] then e
              else (replace_slashes (d.take 1023) ++ "/".toList ++ e).take 1023) := by
    intro e he
    by_cases hd : d = []
    · rw [if_pos hd]; exact he
    · rw [if_neg hd]
      intro hm
      have hm2 := List.mem_of_mem_take hm
      rcases List.mem_append.mp hm2 with hm3 | hm3
      · rcases List.mem_append.mp hm3 with hm4 | hm4
        · exact hP hm4
        · exact absurd hm4 (by decide)
      · exact he hm3
  have hM := hjoin "progs.src".toList (by decide)
  refine ⟨resolve_path d hq, ?_, hopens, ?_, ?_⟩
  · intro hlen
    rw [List.take_of_length_le hlen]
    exact ⟨rfl, replace_slashes_length d⟩
  · intro e hfit
    apply List.take_of_length_le
    have h1 : "/".toList.length = 1 := rfl
    simp only [List.length_append, h1]
    exact hfit
  · intro p hp
    rcases hopens with ho | ho
    · rw [ho] at hp
      rw [List.mem_singleton.mp hp]
      exact hM
    · rw [ho] at hp
      rcases List.mem_cons.mp hp with rfl | hp
      · exact hM
      · rcases List.mem_cons.mp hp with rfl | hp
        · decide
        · obtain ⟨e, he, rfl⟩ := List.mem_map.mp hp
          exact hjoin e (hscanned e he)

/-- Witness of `c10_open_paths`: `-path C:\mod\src` gives the directory
`C:/mod/src`, and the manifest and the source file are opened under it. -/
theorem c10_open_paths_witness :
    (main ["-path".toList, "C:\\mod\\src".toList] modWorld).proc.opens
        = ["C:/mod/src/progs.src".toList, "output.def".toList, "C:/mod/src/sub/foo.qc".toList]
      ∧ ∀ p ∈ (main ["-path".toList, "C:\\mod\\src".toList] modWorld).proc.opens, '\\' ∉ p :=
  ⟨by decide, (c10_open_paths "C:\\mod\\src".toList modWorld (by decide)).2.2.2.2⟩

/-! ## The state machine of the scan: C14, C15, C16, C18 -/

/-- One step from a state with nothing written: the line is dropped and the
state kept, or the line is the one thing written. -/
theorem qcStep_blank (f : Bool) (c : Nat) (x : Str) :
    qcStep { found := f, out := [], count := c } x = { found := f, out := [], count := c }
      ∨ ∃ f2 c2, qcStep { found := f, out := [], count := c } x
          = { found := f2, out := [x], count := c2 } := by
  cases f
  · by_cases hs : hasStart x = true
    · right; exact ⟨true, (c + 1) % UINT_MOD, by simp [qcStep, hs]⟩
    · left; simp [qcStep, hs]
  · right
    exact ⟨if hasEnd x then false else true, c, by simp [qcStep]⟩

/-- What a scan writes is a sublist of what it reads. -/
theorem qcLoop_sublist (lines : List Str) (f : Bool) (c : Nat) :
    (qcLoop lines { found := f, out := [], count := c }).out.Sublist lines := by
  induction lines generalizing f c with
  | nil => exact List.Sublist.slnil
  | cons x xs ih =>
    simp only [qcLoop]
    rcases qcStep_blank f c x with h | ⟨f2, c2, h⟩
    · rw [h]
      exact List.Sublist.cons x (ih f c)
    · rw [h, qcLoop_frame]
      exact List.Sublist.cons₂ x (ih f2 c2)

/-- Scanning what a scan wrote, from the same starting state, gives the same
result. -/
theorem qcLoop_idempotent (lines : List Str) (f : Bool) (c : Nat) :
    qcLoop (qcLoop lines { found := f, out := [], count := c }).out
        { found := f, out := [], count := c }
      = qcLoop lines { found := f, out := [], count := c } := by
  induction lines generalizing f c with
  | nil => rfl
  | cons x xs ih =>
    simp only [qcLoop]
    rcases qcStep_blank f c x with h | ⟨f2, c2, h⟩
    · rw [h]
      exact ih f c
    · rw [h, qcLoop_frame xs]
      have hcons : qcLoop (x :: (qcLoop xs { found := f2, out := [], count := c2 }).out)
            { found := f, out := [], count := c }
          = qcLoop (qcLoop xs { found := f2, out := [], count := c2 }).out
              { found := f2, out := [x], count := c2 } := by
        simp only [qcLoop]
        rw [h]
      show qcLoop (x :: (qcLoop xs { found := f2, out := [], count := c2 }).out)
          { found := f, out := [], count := c } = _
      rw [hcons, qcLoop_frame _ { found := f2, out := [x], count := c2 }]
      show ({ found := (qcLoop (qcLoop xs { found := f2, out := [], count := c2 }).out
                { found := f2, out := [], count := c2 }).found,
              out := [x] ++ (qcLoop (qcLoop xs { found := f2, out := [], count := c2 }).out
                { found := f2, out := [], count := c2 }).out,
              count := (qcLoop (qcLoop xs { found := f2, out := [], count := c2 }).out
                { found := f2, out := [], count := c2 }).count } : Scan) = _
      rw [ih f2 c2]

/-- The scan of a file from its first start-marker line on. -/
theorem scanFile_first_start (pre post : List Str) (s : Str)
    (hpre : ∀ l ∈ pre, hasStart l = false) (hs : hasStart s = true) :
    scanFile (pre ++ s :: post)
      = { found := (qcLoop post { found := true, out := [], count := 1 }).found,
          out := s :: (qcLoop post { found := true, out := [], count := 1 }).out,
          count := (qcLoop post { found := true, out := [], count := 1 }).count } := by
  have hsplit : pre ++ s :: post = pre ++ ([s] ++ post) := by simp
  unfold scanFile
  rw [hsplit, qcLoop_append, qcLoop_append, qcLoop_outside pre _ rfl hpre]
  simp only [qcLoop]
  have hstep : qcStep { found := false, out := [], count := 0 } s
      = { found := true, out := [s], count := 1 } := by
    simp [qcStep, hs, UINT_MOD]
  rw [hstep, qcLoop_frame post]
  rfl

/-- Either no line holds the start marker, or there is a first one that does. -/
theorem first_start (lines : List Str) :
    (∀ l ∈ lines, hasStart l = false)
      ∨ ∃ pre s post, lines = pre ++ s :: post
          ∧ (∀ l ∈ pre, hasStart l = false) ∧ hasStart s = true := by
  rcases first_unopenable (fun l => !hasStart l) lines with hall | ⟨a, e, b, hes, ha, he⟩
  · left
    intro l hl
    simpa using hall l hl
  · right
    exact ⟨a, e, b, hes, fun l hl => by simpa using ha l hl, by simpa using he⟩

/-- C14: a line read in the Inside state is written exactly once, the counter
is left as it is, and the state after it is Outside if the line contains `*/`
and Inside otherwise, also when the line contains the start marker: no nested
or second block is opened. The same line read in the Outside state would open
a block and be counted (`count++` on an `unsigned int`). The second part says the same of line `buf` of a file
whose lines `pre` before it leave the scan Inside. -/
theorem c14_start_marker_inside (st : Scan) (buf : Str)
    (hf : st.found = true) (hs : hasStart buf = true) :
    qcStep st buf = { found := !hasEnd buf, out := st.out ++ [buf], count := st.count }
      ∧ qcStep { st with found := false } buf
          = { found := true, out := st.out ++ [buf], count := (st.count + 1) % UINT_MOD }
      ∧ ∀ pre : List Str, (scanFile pre).found = true →
          scanFile (pre ++ [buf])
            = { found := !hasEnd buf, out := (scanFile pre).out ++ [buf],
                count := (scanFile pre).count } := by
  have hin : ∀ t : Scan, t.found = true →
      qcStep t buf = { found := !hasEnd buf, out := t.out ++ [buf], count := t.count } := by
    intro t ht
    cases he : hasEnd buf <;> simp [qcStep, ht, he]
  refine ⟨hin st hf, by simp [qcStep, hs], ?_⟩
  intro pre hpre
  unfold scanFile at hpre ⊢
  rw [qcLoop_append]
  exact hin _ hpre

/-- Witness of `c14_start_marker_inside`: a second start-marker line inside an
open block, without and then with an end marker. -/
theorem c14_start_marker_inside_witness :
    scanFile (["/*QUAKED a\n".toList] ++ ["/*QUAKED b\n".toList])
        = { found := true, out := ["/*QUAKED a\n".toList, "/*QUAKED b\n".toList], count := 1 }
      ∧ scanFile (["/*QUAKED a\n".toList] ++ ["/*QUAKED b */\n".toList])
        = { found := false, out := ["/*QUAKED a\n".toList, "/*QUAKED b */\n".toList],
            count := 1 } :=
  ⟨((c14_start_marker_inside (scanFile ["/*QUAKED a\n".toList]) "/*QUAKED b\n".toList
      (by decide) (by decide)).2.2 ["/*QUAKED a\n".toList] (by decide)).trans (by decide),
   ((c14_start_marker_inside (scanFile ["/*QUAKED a\n".toList]) "/*QUAKED b */\n".toList
      (by decide) (by decide)).2.2 ["/*QUAKED a\n".toList] (by decide)).trans (by decide)⟩

/-- C15: when line `s` is the first line of a file with the start marker and
no line after it contains `*/`, the scan writes exactly `s` and every line after
it, counts one block and ends Inside; `parse_qc_file` returns normally with that
output appended and the counter raised by 1 (`count++` on an `unsigned int`),
and the next call of `parse_qc_file` scans its file from the Outside state, as
if on its own. The files scanned are not the output file already written to. -/
theorem c15_unbalanced_block (cfg : Config) (f : Str) (p : Proc) (c : Str)
    (pre post : List Str) (s : Str)
    (hopen : p.world.files (qcPath cfg f) = some c)
    (hsrc : qcPath cfg f = cfg.output → p.out = [])
    (hlines : readLines c = pre ++ s :: post)
    (hpre : ∀ l ∈ pre, hasStart l = false) (hs : hasStart s = true)
    (hpost : ∀ l ∈ post, hasEnd l = false) :
    scanFile (readLines c) = { found := true, out := s :: post, count := 1 }
      ∧ parse_qc_file cfg f p = .ok { p with
          opens := p.opens ++ [qcPath cfg f],
          scanned := p.scanned ++ [f],
          out := p.out ++ s :: post,
          count := (p.count + 1) % UINT_MOD }
      ∧ ∀ (f2 c2 : Str) (q : Proc), parse_qc_file cfg f p = .ok q →
          q.world.files (qcPath cfg f2) = some c2 →
          qcPath cfg f2 ≠ cfg.output →
          parse_qc_file cfg f2 q = .ok { q with
            opens := q.opens ++ [qcPath cfg f2],
            scanned := q.scanned ++ [f2],
            out := q.out ++ (scanFile (readLines c2)).out,
            count := (q.count + (scanFile (readLines c2)).count) % UINT_MOD } := by
  have hscan : scanFile (readLines c) = { found := true, out := s :: post, count := 1 } := by
    rw [hlines, scanFile_first_start pre post s hpre hs, qcLoop_inside post _ rfl hpost]
    rfl
  have hloop : qcLoop (readLines c) { found := false, out := p.out, count := p.count }
      = { found := true, out := p.out ++ s :: post, count := (p.count + 1) % UINT_MOD } := by
    have hsplit : pre ++ s :: post = pre ++ ([s] ++ post) := by simp
    have hstep : qcStep { found := false, out := p.out, count := p.count } s
        = { found := true, out := p.out ++ [s], count := (p.count + 1) % UINT_MOD } := by
      simp [qcStep, hs]
    rw [hlines, hsplit, qcLoop_append, qcLoop_append, qcLoop_outside pre _ rfl hpre]
    simp only [qcLoop]
    rw [hstep, qcLoop_inside post _ rfl hpost]
    simp
  have hok : parse_qc_file cfg f p = .ok { p with
      opens := p.opens ++ [qcPath cfg f],
      scanned := p.scanned ++ [f],
      out := p.out ++ s :: post,
      count := (p.count + 1) % UINT_MOD } := by
    unfold parse_qc_file
    simp only [hopen]
    rw [if_neg (fun h => h.2 (hsrc h.1)), hloop]
  refine ⟨hscan, hok, ?_⟩
  intro f2 c2 q hq hfile hsrc2
  have hqc : q.count < UINT_MOD := by
    rw [hok] at hq
    cases hq
    exact Nat.mod_lt _ (by decide)
  exact parse_qc_file_ok cfg f2 q c2 hfile (fun hr => hsrc2 hr.1) hqc

/-- Witness of `c15_unbalanced_block`: `open.qc` ends inside its block; the run
goes on to `foo.qc`, whose block is found from the Outside state. -/
theorem c15_unbalanced_block_witness :
    scanFile (readLines "float x;\n/*QUAKED open\nbody\n".toList)
        = { found := true, out := "/*QUAKED open\n".toList :: ["body\n".toList], count := 1 }
      ∧ (run defaultConfig 0 unbalancedWorld).status = .success
      ∧ (run defaultConfig 0 unbalancedWorld).proc.out
        = ["/*QUAKED open\n".toList, "body\n".toList, "/*QUAKED foo\n".toList, "*/\n".toList]
      ∧ (run defaultConfig 0 unbalancedWorld).reported = some 2 :=
  ⟨(c15_unbalanced_block defaultConfig "open.qc".toList (Proc.init unbalancedWorld)
      "float x;\n/*QUAKED open\nbody\n".toList ["float x;\n".toList] ["body\n".toList]
      "/*QUAKED open\n".toList (by decide) (fun _ => rfl) (by decide) (by decide) (by decide)
      (by decide)).1,
    by decide, by decide, by decide⟩

/-- C16: the output of the scan of a file is a sublist of its lines (lines of
the file, unchanged, in their order, each written at most once); a line read in
the Outside state that does not contain the start marker leaves output, counter
and state as they are; the output is empty exactly when no line of the file
contains the start marker, which is exactly when the file adds 0 to the counter:
no `count++` is performed, the counter is 0 at every point of the scan. For a
file of fewer than 2^32 lines that is exactly when the counter is 0 after the
scan. -/
theorem c16_output_sublist (lines : List Str) :
    (scanFile lines).out.Sublist lines
      ∧ (∀ (st : Scan) (buf : Str), st.found = false → hasStart buf = false →
          qcStep st buf = st)
      ∧ ((scanFile lines).out = [] ↔ ∀ l ∈ lines, hasStart l = false)
      ∧ ((∀ l ∈ lines, hasStart l = false) ↔ blockStarts lines = 0)
      ∧ ((∀ l ∈ lines, hasStart l = false) ↔ ∀ k, (scanFile (lines.take k)).count = 0)
      ∧ (lines.length < UINT_MOD →
          ((∀ l ∈ lines, hasStart l = false) ↔ (scanFile lines).count = 0)) := by
  have hnone : ∀ ls : List Str, (∀ l ∈ ls, hasStart l = false) →
      scanFile ls = { found := false, out := [], count := 0 } :=
    fun ls h => qcLoop_outside ls _ rfl h
  have hone : ∀ pre s post, lines = pre ++ s :: post → (∀ l ∈ pre, hasStart l = false) →
      hasStart s = true → (scanFile (lines.take (pre.length + 1))).count = 1 := by
    intro pre s post hl hpre hs
    have htake : lines.take (pre.length + 1) = pre ++ [s] := by
      rw [hl, List.take_append_eq_append_take]
      simp
    rw [htake, scanFile_first_start pre [] s hpre hs]
    rfl
  have hle : blockStarts lines ≤ lines.length := by
    unfold blockStarts
    exact (List.length_filter_le _ _).trans (by simp)
  have hpos : ∀ pre s post, lines = pre ++ s :: post → (∀ l ∈ pre, hasStart l = false) →
      hasStart s = true → 0 < blockStarts lines := by
    intro pre s post hl hpre hs
    unfold blockStarts
    apply List.length_pos_of_mem (a := pre.length)
    rw [List.mem_filter, List.mem_range]
    refine ⟨by rw [hl]; simp, ?_⟩
    have hget : lines.getD pre.length [] = s := by
      rw [hl, List.getD_eq_getElem?_getD, List.getElem?_append_right (Nat.le_refl _)]
      simp
    have htake : lines.take pre.length = pre := by
      rw [hl]
      simp
    rw [hget, htake, hnone pre hpre, hs]
    rfl
  have hzero : (∀ l ∈ lines, hasStart l = false) → blockStarts lines = 0 := by
    intro hall
    unfold blockStarts
    rw [List.length_eq_zero, List.filter_eq_nil_iff]
    intro i hi
    have hi2 : i < lines.length := List.mem_range.mp hi
    have hmem : lines.getD i [] ∈ lines := by
      rw [List.getD_eq_getElem?_getD, List.getElem?_eq_getElem hi2]
      exact List.getElem_mem hi2
    rw [hall _ hmem]
    simp
  refine ⟨qcLoop_sublist lines false 0, ?_, ⟨?_, ?_⟩, ⟨hzero, ?_⟩, ⟨?_, ?_⟩, ?_⟩
  · intro st buf hf hs
    simp [qcStep, hf, hs]
  · intro hout
    rcases first_start lines with hall | ⟨pre, s, post, hl, hpre, hs⟩
    · exact hall
    · rw [hl, scanFile_first_start pre post s hpre hs] at hout
      cases hout
  · intro hall
    rw [hnone lines hall]
  · intro hb
    rcases first_start lines with hall | ⟨pre, s, post, hl, hpre, hs⟩
    · exact hall
    · have := hpos pre s post hl hpre hs
      omega
  · intro hall k
    rw [hnone _ (fun l hl => hall l (List.mem_of_mem_take hl))]
  · intro hk
    rcases first_start lines with hall | ⟨pre, s, post, hl, hpre, hs⟩
    · exact hall
    · have h1 := hone pre s post hl hpre hs
      rw [hk] at h1
      cases h1
  · intro hlen
    constructor
    · intro hall
      rw [hnone lines hall]
    · intro hcount
      rcases first_start lines with hall | ⟨pre, s, post, hl, hpre, hs⟩
      · exact hall
      · have h1 := hpos pre s post hl hpre hs
        rw [scanFile_count, Nat.mod_eq_of_lt (Nat.lt_of_le_of_lt hle hlen)] at hcount
        omega

/-- Witness of `c16_output_sublist`: a line without start marker read Outside
changes nothing. -/
theorem c16_output_sublist_witness :
    qcStep { found := false, out := ["*/\n".toList], count := 1 } "float x;\n".toList
      = { found := false, out := ["*/\n".toList], count := 1 } :=
  (c16_output_sublist []).2.1 { found := false, out := ["*/\n".toList], count := 1 }
    "float x;\n".toList rfl (by decide)

/-- C18: the scan of a file is idempotent: scanning the lines it wrote gives
the same lines again, with the same count and the same final state. -/
theorem c18_scan_idempotent (lines : List Str) :
    scanFile (scanFile lines).out = scanFile lines
      ∧ (scanFile (scanFile lines).out).out = (scanFile lines).out
      ∧ (scanFile (scanFile lines).out).count = (scanFile lines).count := by
  have h : scanFile (scanFile lines).out = scanFile lines := qcLoop_idempotent lines false 0
  exact ⟨h, by rw [h], by rw [h]⟩

/-! ## Lemmas on the argument loop -/

theorem argLoop_cons (a : Str) (rest : List Str) (cfg : Config) (h : Nat) :
    argLoop (a :: rest) cfg h
      = if (strchr a '?').isSome then .exit (h + 1)
        else argLoop rest (argStep a rest cfg h).1 (argStep a rest cfg h).2 := rfl

theorem strchr_none_of_not_mem (a : Str) (c : Char) (h : c ∉ a) :
    (strchr a c).isSome = false := by
  cases hs : (strchr a c).isSome
  · rfl
  · exact absurd ((strchr_isSome_iff a c).mp hs) h

theorem isValueFlag_false (a : Str) (h : isValueFlag a = false) :
    a ≠ "-path".toList ∧ a ≠ "-progs".toList ∧ a ≠ "-output".toList := by
  unfold isValueFlag at h
  simp only [Bool.or_eq_false_iff, decide_eq_false_iff_not] at h
  exact ⟨h.1.1, h.1.2, h.2⟩

theorem isFlag_false (a : Str) (h : isFlag a = false) :
    a ≠ "-verbose".toList ∧ isValueFlag a = false := by
  unfold isFlag at h
  simp only [Bool.or_eq_false_iff, decide_eq_false_iff_not] at h
  exact h

/-- A token that takes no value acts the same whatever follows it. -/
theorem argStep_of_not_valueFlag (a : Str) (rest : List Str) (cfg : Config) (h : Nat)
    (hv : isValueFlag a = false) :
    argStep a rest cfg h
      = (if a = "-verbose".toList then { cfg with verbose := true } else cfg, h) := by
  obtain ⟨h1, h2, h3⟩ := isValueFlag_false a hv
  unfold argStep
  simp only [if_neg h1, if_neg h2, if_neg h3]

/-- A token looks at the first token after it only. -/
theorem argStep_head (a y : Str) (r1 r2 : List Str) (cfg : Config) (h : Nat) :
    argStep a (y :: r1) cfg h = argStep a (y :: r2) cfg h := rfl

/-- The loop over `a ++ r` is the loop over `a` followed by the loop over `r`,
when the last token of `a` is not a flag that takes a value. -/
theorem argLoop_append (a r : List Str) (cfg : Config) (h : Nat)
    (hlast : ∀ p, a.getLast? = some p → isValueFlag p = false) :
    argLoop (a ++ r) cfg h = thenArgs (argLoop a cfg h) r := by
  induction a generalizing cfg h with
  | nil => rfl
  | cons x a2 ih =>
    rw [List.cons_append, argLoop_cons, argLoop_cons]
    by_cases hq : (strchr x '?').isSome = true
    · rw [if_pos hq, if_pos hq]
      rfl
    · rw [if_neg hq, if_neg hq]
      cases a2 with
      | nil =>
        have hx : isValueFlag x = false := hlast x rfl
        rw [argStep_of_not_valueFlag x _ cfg h hx, argStep_of_not_valueFlag x [] cfg h hx]
        rfl
      | cons y a3 =>
        rw [List.cons_append, argStep_head x y (a3 ++ r) a3]
        exact ih _ _ (fun p hp => hlast p (by rw [List.getLast?_cons_cons]; exact hp))

/-- A token that is no flag and holds no `?` is passed over. -/
theorem argLoop_nonflag_cons (t : Str) (b : List Str) (cfg : Config) (h : Nat)
    (hq : '?' ∉ t) (hf : isFlag t = false) :
    argLoop (t :: b) cfg h = argLoop b cfg h := by
  obtain ⟨hv, hvf⟩ := isFlag_false t hf
  rw [argLoop_cons, strchr_none_of_not_mem t '?' hq, argStep_of_not_valueFlag t b cfg h hvf,
    if_neg hv]
  rfl

/-- A flag that takes a value, met as the last token, displays help and changes
nothing. -/
theorem argLoop_valueFlag_last (f : Str) (cfg : Config) (h : Nat)
    (hf : isValueFlag f = true) :
    argLoop [f] cfg h = .cont cfg (h + 1) := by
  unfold isValueFlag at hf
  simp only [Bool.or_eq_true, decide_eq_true_eq] at hf
  rcases hf with (hf | hf) | hf <;> subst hf <;> rfl

/-- The flag `verbose` after one token. -/
theorem argStep_verbose (a : Str) (rest : List Str) (cfg : Config) (h : Nat) :
    (argStep a rest cfg h).1.verbose
      = if a = "-verbose".toList then true else cfg.verbose := by
  have hsp : ∀ (r : List Str) (c : Config) (k : Nat), (setPath r c k).1.verbose = c.verbose := by
    intro r c k; cases r <;> rfl
  have hsg : ∀ (r : List Str) (c : Config) (k : Nat), (setProgs r c k).1.verbose = c.verbose := by
    intro r c k; cases r <;> rfl
  have hso : ∀ (r : List Str) (c : Config) (k : Nat), (setOutput r c k).1.verbose = c.verbose := by
    intro r c k; cases r <;> rfl
  unfold argStep
  dsimp only
  split_ifs <;> simp only [hsp, hsg, hso]

/-- What one token can change: a field only if the token is the flag of that
field, `verbose` exactly if it is `-verbose`. -/
theorem argStep_fields (a : Str) (rest : List Str) (cfg : Config) (h : Nat) :
    (a ≠ "-path".toList → (argStep a rest cfg h).1.path = cfg.path)
      ∧ (a ≠ "-progs".toList → (argStep a rest cfg h).1.progs = cfg.progs)
      ∧ (a ≠ "-output".toList → (argStep a rest cfg h).1.output = cfg.output)
      ∧ ((argStep a rest cfg h).1.verbose = true
          ↔ cfg.verbose = true ∨ a = "-verbose".toList) := by
  refine ⟨?_, ?_, ?_, ?_⟩
  · intro hn
    unfold argStep
    cases rest <;> simp only [setPath, setProgs, setOutput] <;> split_ifs <;> rfl
  · intro hn
    unfold argStep
    cases rest <;> simp only [setPath, setProgs, setOutput] <;> split_ifs <;> rfl
  · intro hn
    unfold argStep
    cases rest <;> simp only [setPath, setProgs, setOutput] <;>
      split_ifs <;> first | rfl | contradiction
  · rw [argStep_verbose]
    by_cases hv : a = "-verbose".toList
    · rw [if_pos hv]
      exact ⟨fun _ => Or.inr hv, fun _ => rfl⟩
    · rw [if_neg hv]
      exact ⟨fun hc => Or.inl hc, fun hc => hc.elim id (fun he => absurd he hv)⟩

/-- What the argument loop can change when it runs to its end. -/
theorem argLoop_keeps (argv : List Str) (cfg : Config) (h : Nat) (c : Config) (k : Nat)
    (hres : argLoop argv cfg h = .cont c k) :
    ("-path".toList ∉ argv → c.path = cfg.path)
      ∧ ("-progs".toList ∉ argv → c.progs = cfg.progs)
      ∧ ("-output".toList ∉ argv → c.output = cfg.output)
      ∧ (c.verbose = true ↔ cfg.verbose = true ∨ "-verbose".toList ∈ argv) := by
  induction argv generalizing cfg h with
  | nil =>
    cases hres
    simp
  | cons a rest ih =>
    rw [argLoop_cons] at hres
    by_cases hq : (strchr a '?').isSome = true
    · rw [if_pos hq] at hres
      cases hres
    · rw [if_neg hq] at hres
      obtain ⟨i1, i2, i3, i4⟩ := ih _ _ hres
      obtain ⟨s1, s2, s3, s4⟩ := argStep_fields a rest cfg h
      refine ⟨?_, ?_, ?_, ?_⟩
      · intro hn
        rw [i1 (fun hm => hn (List.mem_cons_of_mem _ hm)),
          s1 (fun he => hn (by rw [he]; exact List.mem_cons_self _ _))]
      · intro hn
        rw [i2 (fun hm => hn (List.mem_cons_of_mem _ hm)),
          s2 (fun he => hn (by rw [he]; exact List.mem_cons_self _ _))]
      · intro hn
        rw [i3 (fun hm => hn (List.mem_cons_of_mem _ hm)),
          s3 (fun he => hn (by rw [he]; exact List.mem_cons_self _ _))]
      · rw [i4, s4, List.mem_cons]
        constructor
        · rintro ((hv | ha) | hm)
          · exact Or.inl hv
          · exact Or.inr (Or.inl ha.symm)
          · exact Or.inr (Or.inr hm)
        · rintro (hv | ha | hm)
          · exact Or.inl (Or.inl hv)
          · exact Or.inl (Or.inr ha.symm)
          · exact Or.inr hm

/-- The defaults fill in the empty file names and change nothing else. -/
theorem applyDefaults_fields (c : Config) :
    (applyDefaults c).path = c.path
      ∧ (applyDefaults c).verbose = c.verbose
      ∧ (c.progs = [] → (applyDefaults c).progs = "progs.src".toList)
      ∧ (c.output = [] → (applyDefaults c).output = "output.def".toList) := by
  unfold applyDefaults
  refine ⟨?_, ?_, ?_, ?_⟩
  · dsimp only
    split_ifs <;> rfl
  · dsimp only
    split_ifs <;> rfl
  · intro hp
    have h0 : c.progs.length = 0 := by rw [hp]; rfl
    dsimp only
    rw [if_pos h0]
    split_ifs <;> rfl
  · intro ho
    have h0 : c.output.length = 0 := by rw [ho]; rfl
    dsimp only
    split_ifs <;> rfl

/-- The resolver on a command line without `?`: the loop runs to its end and
the defaults are applied to what it leaves. -/
theorem resolve_cont (argv : List Str) (hq : ∀ t ∈ argv, '?' ∉ t) :
    ∃ c k, argLoop argv Config.zero 0 = .cont c k
      ∧ resolve argv = .cont (applyDefaults c) k := by
  rcases argLoop_cases argv Config.zero 0 with ⟨⟨t, ht, hqt⟩, _⟩ | ⟨_, c, k, hc⟩
  · exact absurd hqt (hq t ht)
  · exact ⟨c, k, hc, by simp only [resolve, hc]⟩

/-! ## Defaults, order of the options and tokens without value: C11, C12, C17, C19 -/

/-- C12: on a command line without `?`, the manifest name is `progs.src` if no
token is `-progs`, the output name is `output.def` if no token is `-output`,
the source directory is empty if no token is `-path` (the manifest and the
source files are then opened under their own names), and `verbose` is false if
no token is `-verbose`. A token that is no recognised flag and does not follow
`-path`, `-progs` or `-output` can be removed without changing what is resolved. -/
theorem c12_defaults (argv : List Str) (hq : ∀ t ∈ argv, '?' ∉ t) :
    (∃ cfg h, resolve argv = .cont cfg h
        ∧ ("-progs".toList ∉ argv → cfg.progs = "progs.src".toList)
        ∧ ("-output".toList ∉ argv → cfg.output = "output.def".toList)
        ∧ ("-path".toList ∉ argv →
            cfg.path = [] ∧ progsPath cfg = cfg.progs ∧ ∀ e, qcPath cfg e = e)
        ∧ ("-verbose".toList ∉ argv → cfg.verbose = false))
      ∧ ∀ a b t, argv = a ++ t :: b → isFlag t = false →
          (∀ p, a.getLast? = some p → isValueFlag p = false) →
          resolve (a ++ b) = resolve argv := by
  constructor
  · obtain ⟨c, k, hc, hres⟩ := resolve_cont argv hq
    obtain ⟨k1, k2, k3, k4⟩ := argLoop_keeps argv Config.zero 0 c k hc
    obtain ⟨d1, d2, d3, d4⟩ := applyDefaults_fields c
    refine ⟨applyDefaults c, k, hres, ?_, ?_, ?_, ?_⟩
    · intro hn
      exact d3 (k2 hn)
    · intro hn
      exact d4 (k3 hn)
    · intro hn
      have hp : (applyDefaults c).path = [] := by rw [d1, k1 hn]; rfl
      refine ⟨hp, ?_, ?_⟩
      · unfold progsPath
        rw [hp]
        rfl
      · intro e
        unfold qcPath
        rw [hp]
        rfl
    · intro hn
      rw [d2]
      cases hv : c.verbose
      · rfl
      · rcases k4.mp hv with h0 | hm
        · cases h0
        · exact absurd hm hn
  · intro a b t hargv hf hlast
    have hqt : '?' ∉ t := hq t (by rw [hargv]; simp)
    unfold resolve
    rw [hargv, argLoop_append a b _ _ hlast, argLoop_append a (t :: b) _ _ hlast]
    cases argLoop a Config.zero 0 with
    | exit k => rfl
    | cont c k =>
      simp only [thenArgs]
      rw [argLoop_nonflag_cons t b c k hqt hf]

/-- Witness of `c12_defaults`: an unrecognised token before `-verbose`. -/
theorem c12_defaults_witness :
    resolve ["junk".toList, "-verbose".toList]
        = .cont { path := [], progs := "progs.src".toList, output := "output.def".toList,
                  verbose := true } 0
      ∧ resolve ([] ++ ["-verbose".toList]) = resolve ["junk".toList, "-verbose".toList] :=
  ⟨by decide,
    (c12_defaults ["junk".toList, "-verbose".toList] (by decide)).2 [] ["-verbose".toList]
      "junk".toList rfl (by decide) (by decide)⟩

/-- C17, as stated, fails when the token before the last takes the last one as
its value: `-path -progs` resolves the source directory `-progs`, while `-path`
alone leaves it empty. -/
theorem c17_consumed_flag_counterexample :
    resolve ["-path".toList, "-progs".toList]
        = .cont { path := "-progs".toList, progs := "progs.src".toList,
                  output := "output.def".toList, verbose := false } 1
      ∧ resolve ["-path".toList]
        = .cont { path := [], progs := "progs.src".toList,
                  output := "output.def".toList, verbose := false } 1 := by
  decide

/-- C17, amended: on a command line without `?` whose last token `f` is `-path`,
`-progs` or `-output` and whose token before it, if any, is none of these three,
the resolver displays help once more than on the line without `f`, does not
exit, and resolves the same Configuration as on the line without `f`. -/
theorem c17_trailing_flag (a : List Str) (f : Str) (hq : ∀ t ∈ a, '?' ∉ t)
    (hf : isValueFlag f = true)
    (hlast : ∀ p, a.getLast? = some p → isValueFlag p = false) :
    ∃ cfg h, resolve a = .cont cfg h ∧ resolve (a ++ [f]) = .cont cfg (h + 1) := by
  obtain ⟨c, k, hc, hres⟩ := resolve_cont a hq
  refine ⟨applyDefaults c, k, hres, ?_⟩
  unfold resolve
  rw [argLoop_append a [f] _ _ hlast, hc]
  simp only [thenArgs]
  rw [argLoop_valueFlag_last f c k hf]

/-- Witness of `c17_trailing_flag`: `-verbose -output`. -/
theorem c17_trailing_flag_witness :
    ∃ cfg h, resolve ["-verbose".toList] = .cont cfg h
      ∧ resolve (["-verbose".toList] ++ ["-output".toList]) = .cont cfg (h + 1) :=
  c17_trailing_flag ["-verbose".toList] "-output".toList (by decide) (by decide) (by decide)

/-- C19: the resolver goes through the tokens one at a time, and a token taken
as a value is also read as a token of its own: on a command line without `?`,
`verbose` is true exactly when some token, at any place, is `-verbose`. -/
theorem c19_verbose_any_position (argv : List Str) (hq : ∀ t ∈ argv, '?' ∉ t) :
    (∃ cfg h, resolve argv = .cont cfg h
        ∧ (cfg.verbose = true ↔ "-verbose".toList ∈ argv))
      ∧ ∀ (a : Str) (rest : List Str) (c : Config) (k : Nat), '?' ∉ a →
          argLoop (a :: rest) c k
            = argLoop rest (argStep a rest c k).1 (argStep a rest c k).2 := by
  constructor
  · obtain ⟨c, k, hc, hres⟩ := resolve_cont argv hq
    obtain ⟨_, _, _, k4⟩ := argLoop_keeps argv Config.zero 0 c k hc
    refine ⟨applyDefaults c, k, hres, ?_⟩
    rw [(applyDefaults_fields c).2.1, k4]
    constructor
    · rintro (h0 | hm)
      · cases h0
      · exact hm
    · exact fun hm => Or.inr hm
  · intro a rest c k ha
    rw [argLoop_cons, strchr_none_of_not_mem a '?' ha]
    rfl

/-- Witness of `c19_verbose_any_position`: in `-path -verbose` the second token
is the source directory and also sets `verbose`. -/
theorem c19_verbose_any_position_witness :
    resolve ["-path".toList, "-verbose".toList]
        = .cont { path := "-verbose".toList, progs := "progs.src".toList,
                  output := "output.def".toList, verbose := true } 0
      ∧ ∃ cfg h, resolve ["-path".toList, "-verbose".toList] = .cont cfg h
          ∧ (cfg.verbose = true ↔ "-verbose".toList ∈ ["-path".toList, "-verbose".toList]) :=
  ⟨by decide, (c19_verbose_any_position ["-path".toList, "-verbose".toList] (by decide)).1⟩

/-- The value of a well-formed group holds no `?` and is no flag. -/
theorem wellFormed_value (v : Str) (h : (decide ('?' ∉ v) && !isFlag v) = true) :
    '?' ∉ v ∧ isFlag v = false := by
  simp only [Bool.and_eq_true, decide_eq_true_eq, Bool.not_eq_true'] at h
  exact h

/-- The loop reads a well-formed group as the update of its field. -/
theorem argLoop_group (g : Group) (r : List Str) (cfg : Config) (h : Nat)
    (hwf : g.wellFormed = true) :
    argLoop (g.tokens ++ r) cfg h = argLoop r (g.apply cfg) h := by
  cases g with
  | verbose => rfl
  | path v =>
    obtain ⟨hq, hf⟩ := wellFormed_value v hwf
    have hstep : argLoop (Group.tokens (.path v) ++ r) cfg h
        = argLoop (v :: r) (Group.apply (.path v) cfg) h := rfl
    rw [hstep, argLoop_nonflag_cons v r _ h hq hf]
  | progs v =>
    obtain ⟨hq, hf⟩ := wellFormed_value v hwf
    have hstep : argLoop (Group.tokens (.progs v) ++ r) cfg h
        = argLoop (v :: r) (Group.apply (.progs v) cfg) h := rfl
    rw [hstep, argLoop_nonflag_cons v r _ h hq hf]
  | output v =>
    obtain ⟨hq, hf⟩ := wellFormed_value v hwf
    have hstep : argLoop (Group.tokens (.output v) ++ r) cfg h
        = argLoop (v :: r) (Group.apply (.output v) cfg) h := rfl
    rw [hstep, argLoop_nonflag_cons v r _ h hq hf]

/-- The loop over a line of well-formed groups applies them one after the
other and displays no help. -/
theorem argLoop_groups (gs : List Group) (cfg : Config) (h : Nat)
    (hwf : ∀ g ∈ gs, g.wellFormed = true) :
    argLoop (groupArgs gs) cfg h = .cont (gs.foldl (fun c g => g.apply c) cfg) h := by
  induction gs generalizing cfg with
  | nil => rfl
  | cons g gs ih =>
    have hcons : groupArgs (g :: gs) = g.tokens ++ groupArgs gs := by
      simp [groupArgs]
    rw [hcons, argLoop_group g _ cfg h (hwf g (by simp)),
      ih _ (fun x hx => hwf x (by simp [hx]))]
    rfl

/-- Two groups with different flags set different fields, in either order. -/
theorem Group.apply_comm (x y : Group) (c : Config) (hxy : x = y ∨ x.flag ≠ y.flag) :
    y.apply (x.apply c) = x.apply (y.apply c) := by
  rcases hxy with rfl | hne
  · rfl
  · cases x <;> cases y <;> first | rfl | exact absurd rfl hne

/-- C11: on a command line made of well-formed option groups, each flag at most
once, every value none of the four flags and without `?`, the resolver displays
no help and returns a Configuration, and every permutation of the groups
resolves to the same Configuration. -/
theorem c11_order_of_groups (gs gs2 : List Group) (hperm : gs.Perm gs2)
    (hnodup : (gs.map Group.flag).Nodup)
    (hwf : ∀ g ∈ gs, g.wellFormed = true) :
    resolve (groupArgs gs2) = resolve (groupArgs gs)
      ∧ ∃ cfg, resolve (groupArgs gs) = .cont cfg 0 := by
  have hwf2 : ∀ g ∈ gs2, g.wellFormed = true := fun g hg => hwf g (hperm.mem_iff.mpr hg)
  have hfold : gs.foldl (fun c g => g.apply c) Config.zero
      = gs2.foldl (fun c g => g.apply c) Config.zero := by
    apply hperm.foldl_eq'
    intro x hx y hy z
    apply Group.apply_comm
    by_cases hf : x.flag = y.flag
    · exact Or.inl (List.inj_on_of_nodup_map hnodup hx hy hf)
    · exact Or.inr hf
  unfold resolve
  rw [argLoop_groups gs _ 0 hwf, argLoop_groups gs2 _ 0 hwf2, hfold]
  exact ⟨rfl, _, rfl⟩

/-- Witness of `c11_order_of_groups`: four groups in two orders. -/
theorem c11_order_of_groups_witness :
    resolve (groupArgs [.output "mod.def".toList, .verbose, .progs "mod.src".toList,
        .path "C:\\mod".toList])
      = resolve (groupArgs [.path "C:\\mod".toList, .progs "mod.src".toList,
        .output "mod.def".toList, .verbose])
      ∧ ∃ cfg, resolve (groupArgs [.path "C:\\mod".toList, .progs "mod.src".toList,
        .output "mod.def".toList, .verbose]) = .cont cfg 0 :=
  c11_order_of_groups
    [.path "C:\\mod".toList, .progs "mod.src".toList, .output "mod.def".toList, .verbose]
    [.output "mod.def".toList, .verbose, .progs "mod.src".toList, .path "C:\\mod".toList]
    (by decide) (by decide) (by decide)

/-! ## Running twice: C13 -/

theorem World.write_write (w : World) (p c d : Str) :
    (w.write p c).write p d = w.write p d := by
  have hfiles : ((w.write p c).write p d).files = (w.write p d).files := by
    funext q
    by_cases hq : q = p <;> simp [World.write, hq]
  calc (w.write p c).write p d
      = { files := ((w.write p c).write p d).files, writable := w.writable } := rfl
    _ = { files := (w.write p d).files, writable := w.writable } := by rw [hfiles]
    _ = w.write p d := rfl

/-- The file system during the scan does not depend on what the output file held. -/
theorem scanWorld_write (cfg : Config) (w : World) (c : Str) :
    scanWorld cfg (w.write cfg.output c) = scanWorld cfg w :=
  World.write_write w cfg.output c []

/-- A run whose files open does not depend on what the output file held, when
the output is not the manifest. -/
theorem run_write_output (cfg : Config) (h : Nat) (w : World) (c : Str)
    (hne : progsPath cfg ≠ cfg.output)
    (hm : (w.files (progsPath cfg)).isSome = true) (ho : w.writable cfg.output = true) :
    run cfg h (w.write cfg.output c) = run cfg h w := by
  obtain ⟨c0, hc0⟩ := Option.isSome_iff_exists.mp hm
  have hm2 : (w.write cfg.output c).files (progsPath cfg) = some c0 := by
    simp [World.write, hne, hc0]
  have ho2 : (w.write cfg.output c).writable cfg.output = true := ho
  have hent : runEntries cfg (w.write cfg.output c) = runEntries cfg w := by
    unfold runEntries
    rw [scanWorld_write]
  have hstart : startProc cfg (w.write cfg.output c) = startProc cfg w := by
    unfold startProc
    rw [scanWorld_write]
  rw [run_scan cfg h _ c0 hm2 ho2, run_scan cfg h w c0 hc0 ho, hent, hstart]

/-- The file system left by a run none of whose entries names the output file:
the one it started in, or that one with the output file rewritten, which
happens only if manifest and output opened. -/
theorem run_world (cfg : Config) (h : Nat) (w : World)
    (hsrc : ∀ e ∈ runEntries cfg w, qcPath cfg e ≠ cfg.output) :
    (run cfg h w).proc.world = w
      ∨ ((w.files (progsPath cfg)).isSome = true ∧ w.writable cfg.output = true
          ∧ (run cfg h w).proc.world = w.write cfg.output (run cfg h w).proc.out.flatten) := by
  cases hm : w.files (progsPath cfg) with
  | none =>
    left
    rw [run_manifest_missing cfg h w hm]
    rfl
  | some c =>
    cases ho : w.writable cfg.output with
    | false =>
      left
      rw [run_output_unwritable cfg h w c hm ho]
      rfl
    | true =>
      right
      refine ⟨rfl, rfl, ?_⟩
      rw [run_scan cfg h w c hm ho]
      rcases scanAll_cases cfg (runEntries cfg w) (startProc cfg w) hsrc (startProc_count cfg w)
        with ⟨_, hok⟩ | ⟨a, e, b, _, _, _, herr⟩
      · rw [hok]
        exact World.write_write w cfg.output [] _
      · rw [herr]
        exact World.write_write w cfg.output [] _

/-- C13: when the output path is not the manifest path, a second run with the
same Configuration on the file system the first run left behaves as the first
did: same status, same reported count, same output stream, and the output file
holds the same content after it. The first run leaves the manifest as it was,
and every source file whose path is not the output path. The output is
truncated on open: a run whose manifest and output open does not depend on what
the output file held before. -/
theorem c13_run_twice (cfg : Config) (h : Nat) (w : World)
    (hne : progsPath cfg ≠ cfg.output)
    (hsrc : ∀ e ∈ runEntries cfg w, qcPath cfg e ≠ cfg.output) :
    run cfg h (run cfg h w).proc.world = run cfg h w
      ∧ (run cfg h (run cfg h w).proc.world).proc.world.files cfg.output
          = (run cfg h w).proc.world.files cfg.output
      ∧ (run cfg h (run cfg h w).proc.world).reported = (run cfg h w).reported
      ∧ (run cfg h w).proc.world.files (progsPath cfg) = w.files (progsPath cfg)
      ∧ (∀ e ∈ runEntries cfg w,
          (run cfg h w).proc.world.files (qcPath cfg e) = w.files (qcPath cfg e))
      ∧ ∀ c : Str, (w.files (progsPath cfg)).isSome = true → w.writable cfg.output = true →
          run cfg h (w.write cfg.output c) = run cfg h w := by
  have hfile : ∀ q, q ≠ cfg.output → (run cfg h w).proc.world.files q = w.files q := by
    intro q hq
    rcases run_world cfg h w hsrc with hw | ⟨_, _, hw⟩
    · rw [hw]
    · rw [hw]
      simp [World.write, hq]
  have htwice : run cfg h (run cfg h w).proc.world = run cfg h w := by
    rcases run_world cfg h w hsrc with hw | ⟨hm, ho, hw⟩
    · rw [hw]
    · rw [hw]
      exact run_write_output cfg h w _ hne hm ho
  refine ⟨htwice, by rw [htwice], by rw [htwice], hfile _ hne,
    fun e he => hfile _ (hsrc e he), ?_⟩
  intro c hm ho
  exact run_write_output cfg h w c hne hm ho

/-- Witness of `c13_run_twice`: two runs over `demoWorld`. -/
theorem c13_run_twice_witness :
    (run defaultConfig 0 demoWorld).proc.world.files "output.def".toList
        = some "/*QUAKED foo (1 0 0)\nbody\n*/\n".toList
      ∧ (run defaultConfig 0 (run defaultConfig 0 demoWorld).proc.world).proc.world.files
          defaultConfig.output
        = (run defaultConfig 0 demoWorld).proc.world.files defaultConfig.output
      ∧ (run defaultConfig 0 (run defaultConfig 0 demoWorld).proc.world).reported
        = (run defaultConfig 0 demoWorld).reported :=
  have h := c13_run_twice defaultConfig 0 demoWorld (by decide) (by decide)
  ⟨by decide, h.2.1, h.2.2.1⟩

end Qdefmake
